import Mathlib

/-!
Verification of the `peggy` PEG combinator engine (`peg.py`).

The embedding translates the matcher class hierarchy, the `YYtext` /
`YYignore` parse-result nodes, the recursive `parse` recognition routines,
and the memoized `match` entry point into Lean.  Input sequences are
modelled as `List Char` (the engine only needs indexed/sliced access and a
length).  A raised Python exception (e.g. the `IndexError` from
`Dot.parse` past the end of input, or the `NameError` from an empty
`Choice`) is modelled as the outcome `Res.crash`; `None` (no match) is
`Res.fail`.

Recursion in `parse` is not structural (the `Star` loop re-invokes the
same sub-matcher), so the interpreter is written with a fuel parameter;
`parseN fuel s input pos = none` means the fuel ran out.  We prove fuel
monotonicity and that the explicit bound `fuelFor` always suffices, and
define the total function `pegMatch` with that bound.  Memoization keys
use the matcher term itself (Python keys on object identity; the two
coincide for grammars in which structurally equal matcher objects are
shared, and identity of a matcher `Plus m` covers the `Sequence`/`Star`
objects it builds at construction, which appear here as the terms
`Symbol.Seq [m, Symbol.Star m]` etc.).
-/

namespace Peggy

/-- The matcher hierarchy of `peg.py` as a closed variant type.
`Str` is class `String`, `Seq` is `Sequence` (k-ary, as in
`Sequence(*symbols)`), `Choice` is k-ary ordered choice, and the rest
keep their source names.  `Regexp` (and its subclass `Range`) are the
only matchers not embedded: no claim mentions them.  `Plus` stores its
sub-matcher; its `parse` delegates to `Sequence(symbol, Star(symbol))`
exactly as `Plus.__init__`/`Plus.parse` do, and likewise `Optional`
delegates to `Choice(symbol, String(''))`. -/
inductive Symbol : Type where
  | Str (pattern : List Char)
  | Dot
  | Seq (symbols : List Symbol)
  | Choice (symbols : List Symbol)
  | Star (symbol : Symbol)
  | Plus (symbol : Symbol)
  | Optional (symbol : Symbol)
  | And (symbol : Symbol)
  | Not (symbol : Symbol)
  | Ignore (symbol : Symbol)

mutual
/-- Boolean structural equality on matchers (stands in for Python object
identity as a memo key; see the module comment). -/
def symBEq : Symbol → Symbol → Bool
  | .Str p, .Str q => decide (p = q)
  | .Dot, .Dot => true
  | .Seq l, .Seq l' => symBEqL l l'
  | .Choice l, .Choice l' => symBEqL l l'
  | .Star a, .Star b => symBEq a b
  | .Plus a, .Plus b => symBEq a b
  | .Optional a, .Optional b => symBEq a b
  | .And a, .And b => symBEq a b
  | .Not a, .Not b => symBEq a b
  | .Ignore a, .Ignore b => symBEq a b
  | _, _ => false

def symBEqL : List Symbol → List Symbol → Bool
  | [], [] => true
  | a :: as, b :: bs => symBEq a b && symBEqL as bs
  | _, _ => false
end

mutual
def symBEq_refl : ∀ a, symBEq a a = true
  | .Str p => by simp [symBEq]
  | .Dot => rfl
  | .Seq l => symBEqL_refl l
  | .Choice l => symBEqL_refl l
  | .Star a => symBEq_refl a
  | .Plus a => symBEq_refl a
  | .Optional a => symBEq_refl a
  | .And a => symBEq_refl a
  | .Not a => symBEq_refl a
  | .Ignore a => symBEq_refl a

def symBEqL_refl : ∀ l, symBEqL l l = true
  | [] => rfl
  | a :: as => by
    have h1 := symBEq_refl a
    have h2 := symBEqL_refl as
    simp [symBEqL, h1, h2]
end

mutual
def symBEq_eq : ∀ a b, symBEq a b = true → a = b
  | .Str p, .Str q, h => by
    have : p = q := by simpa [symBEq] using h
    rw [this]
  | .Dot, .Dot, _ => rfl
  | .Seq l, .Seq l', h => by rw [symBEqL_eq l l' (by simpa [symBEq] using h)]
  | .Choice l, .Choice l', h =>
    by rw [symBEqL_eq l l' (by simpa [symBEq] using h)]
  | .Star a, .Star b, h => by rw [symBEq_eq a b (by simpa [symBEq] using h)]
  | .Plus a, .Plus b, h => by rw [symBEq_eq a b (by simpa [symBEq] using h)]
  | .Optional a, .Optional b, h =>
    by rw [symBEq_eq a b (by simpa [symBEq] using h)]
  | .And a, .And b, h => by rw [symBEq_eq a b (by simpa [symBEq] using h)]
  | .Not a, .Not b, h => by rw [symBEq_eq a b (by simpa [symBEq] using h)]
  | .Ignore a, .Ignore b, h =>
    by rw [symBEq_eq a b (by simpa [symBEq] using h)]
  | .Str _, .Dot, h | .Str _, .Seq _, h | .Str _, .Choice _, h
  | .Str _, .Star _, h | .Str _, .Plus _, h | .Str _, .Optional _, h
  | .Str _, .And _, h | .Str _, .Not _, h | .Str _, .Ignore _, h
  | .Dot, .Str _, h | .Dot, .Seq _, h | .Dot, .Choice _, h
  | .Dot, .Star _, h | .Dot, .Plus _, h | .Dot, .Optional _, h
  | .Dot, .And _, h | .Dot, .Not _, h | .Dot, .Ignore _, h
  | .Seq _, .Str _, h | .Seq _, .Dot, h | .Seq _, .Choice _, h
  | .Seq _, .Star _, h | .Seq _, .Plus _, h | .Seq _, .Optional _, h
  | .Seq _, .And _, h | .Seq _, .Not _, h | .Seq _, .Ignore _, h
  | .Choice _, .Str _, h | .Choice _, .Dot, h | .Choice _, .Seq _, h
  | .Choice _, .Star _, h | .Choice _, .Plus _, h | .Choice _, .Optional _, h
  | .Choice _, .And _, h | .Choice _, .Not _, h | .Choice _, .Ignore _, h
  | .Star _, .Str _, h | .Star _, .Dot, h | .Star _, .Seq _, h
  | .Star _, .Choice _, h | .Star _, .Plus _, h | .Star _, .Optional _, h
  | .Star _, .And _, h | .Star _, .Not _, h | .Star _, .Ignore _, h
  | .Plus _, .Str _, h | .Plus _, .Dot, h | .Plus _, .Seq _, h
  | .Plus _, .Choice _, h | .Plus _, .Star _, h | .Plus _, .Optional _, h
  | .Plus _, .And _, h | .Plus _, .Not _, h | .Plus _, .Ignore _, h
  | .Optional _, .Str _, h | .Optional _, .Dot, h | .Optional _, .Seq _, h
  | .Optional _, .Choice _, h | .Optional _, .Star _, h
  | .Optional _, .Plus _, h | .Optional _, .And _, h | .Optional _, .Not _, h
  | .Optional _, .Ignore _, h
  | .And _, .Str _, h | .And _, .Dot, h | .And _, .Seq _, h
  | .And _, .Choice _, h | .And _, .Star _, h | .And _, .Plus _, h
  | .And _, .Optional _, h | .And _, .Not _, h | .And _, .Ignore _, h
  | .Not _, .Str _, h | .Not _, .Dot, h | .Not _, .Seq _, h
  | .Not _, .Choice _, h | .Not _, .Star _, h | .Not _, .Plus _, h
  | .Not _, .Optional _, h | .Not _, .And _, h | .Not _, .Ignore _, h
  | .Ignore _, .Str _, h | .Ignore _, .Dot, h | .Ignore _, .Seq _, h
  | .Ignore _, .Choice _, h | .Ignore _, .Star _, h | .Ignore _, .Plus _, h
  | .Ignore _, .Optional _, h | .Ignore _, .And _, h | .Ignore _, .Not _, h
    => nomatch h

def symBEqL_eq : ∀ x y, symBEqL x y = true → x = y
  | [], [], _ => rfl
  | a :: as, b :: bs, h => by
    have h1 : symBEq a b = true := by
      have := h; simp [symBEqL] at this; exact this.1
    have h2 : symBEqL as bs = true := by
      have := h; simp [symBEqL] at this; exact this.2
    rw [symBEq_eq a b h1, symBEqL_eq as bs h2]
  | [], _ :: _, h => nomatch h
  | _ :: _, [], h => nomatch h
end

instance : DecidableEq Symbol := fun a b =>
  if h : symBEq a b = true then isTrue (symBEq_eq a b h)
  else isFalse (fun hh => h (hh ▸ symBEq_refl a))

/-- A parse-result node: class `YYtext` together with its subclass
`YYignore`, distinguished by the `ign` flag (`YYignore.__str__` returns
`''`).  Fields: owning matcher (`self.symbol`), start position
(`self.pos`), locally recognized text (`self.yytext`) and ordered child
results (`self.child`).  The `name` attribute and `YYignore.ignored`
back-reference are never read by the engine and are omitted. -/
inductive YY : Type where
  | mk (symbol : Symbol) (pos : Nat) (yytext : List Char) (child : List YY)
       (ign : Bool)

namespace YY

def symbol : YY → Symbol | mk s _ _ _ _ => s
def pos : YY → Nat | mk _ p _ _ _ => p
def yytext : YY → List Char | mk _ _ t _ _ => t
def child : YY → List YY | mk _ _ _ c _ => c
def ign : YY → Bool | mk _ _ _ _ b => b

end YY

mutual
/-- Consumed length: `YYtext.__len__`, i.e. `len(self.yytext)` plus the
sum of the lengths of all children.  `YYignore` inherits this method, so
the `ign` flag does not affect it. -/
def yyLen : YY → Nat
  | .mk _ _ t c _ => t.length + yyLenL c

def yyLenL : List YY → Nat
  | [] => 0
  | x :: xs => yyLen x + yyLenL xs
end

mutual
/-- Rendered text: `YYtext.__str__` is `self.yytext` followed by the
rendered text of each child; `YYignore.__str__` overrides it to `''`. -/
def yyStr : YY → List Char
  | .mk _ _ t c b => if b then [] else t ++ yyStrL c

def yyStrL : List YY → List Char
  | [] => []
  | x :: xs => yyStr x ++ yyStrL xs
end

/-- Node append, `YYtext.__add__`: returns `Undefined` (here `none`) when
the appended node's start is not the running end `self.pos + len(self)`;
otherwise a fresh node with the same owner, position and text and the
extra child.  The result is built with the `YYtext` constructor even when
`self` is a `YYignore`, hence `ign := false`. -/
def yyAdd (a b : YY) : Option YY :=
  if a.pos + yyLen a = b.pos then
    some (.mk a.symbol a.pos a.yytext (a.child ++ [b]) false)
  else
    none

/-- Outcome of a recognition attempt: `ok` is a returned `YYtext`,
`fail` is Python `None`, and `crash` is a raised exception
(`IndexError` in `Dot.parse` past the end, `NameError` in an empty
`Choice`, or the `TypeError`/`Undefined` contamination after a
non-contiguous `__add__` in `Sequence.parse`). -/
inductive Res : Type where
  | crash
  | fail
  | ok (r : YY)

def Res.isOk : Res → Bool | .ok _ => true | _ => false
def Res.isFail : Res → Bool | .fail => true | _ => false
def Res.isCrash : Res → Bool | .crash => true | _ => false

/-- Consumed length of an outcome, `0` for failure/crash. -/
def Res.len : Res → Nat | .ok r => yyLen r | _ => 0

mutual
/-- Fueled interpreter for `Symbol.parse` (and, through it, the pure
semantics of `Symbol.match`: with a coherent memo table `match` returns
exactly what `parse` returns, see the memoized layer below).  `none`
means the fuel ran out; `some r` is the outcome the Python code
produces. -/
def parseN : Nat → Symbol → List Char → Nat → Option Res
  | 0, _, _, _ => none
  | f + 1, s, input, pos =>
    match s with
    | .Str p =>
      -- String.parse: two guards, then YYtext(self, pos, self.pattern).
      if (input.drop pos).length < p.length then some .fail
      else if (input.drop pos).take p.length ≠ p then some .fail
      else some (.ok (.mk (.Str p) pos p [] false))
    | .Dot =>
      -- Dot.parse: None at exactly end of input, else inputSequence[pos],
      -- which raises IndexError when pos exceeds the length.
      if pos = input.length then some .fail
      else if h : pos < input.length then
        some (.ok (.mk .Dot pos [input.get ⟨pos, h⟩] [] false))
      else some .crash
    | .Seq l => seqGo f (.Seq l) l input pos (.mk (.Seq l) pos [] [] false)
    | .Choice l =>
      -- Choice.parse: iterating over an empty alternatives list leaves
      -- `tmp` unbound (NameError).
      match l with
      | [] => some .crash
      | _ :: _ => choiceGo f (.Choice l) l input pos
    | .Star m => starGo f m input (.mk (.Star m) pos [] [] false)
    | .Plus m =>
      -- Plus.parse delegates to the Sequence(symbol, Star(symbol)) built
      -- in Plus.__init__.
      parseN f (.Seq [m, .Star m]) input pos
    | .Optional m =>
      -- Optional.parse delegates to Choice(symbol, String('')).
      parseN f (.Choice [m, .Str []]) input pos
    | .And m =>
      match parseN f m input pos with
      | none => none
      | some .crash => some .crash
      | some .fail => some .fail
      | some (.ok _) => some (.ok (.mk (.And m) pos [] [] false))
    | .Not m =>
      match parseN f m input pos with
      | none => none
      | some .crash => some .crash
      | some .fail => some (.ok (.mk (.Not m) pos [] [] false))
      | some (.ok _) => some .fail
    | .Ignore m =>
      -- Ignore.parse: result = self.symbol.parse(...); on success wrap as
      -- YYignore(self, pos, str(result), result): the stored text is the
      -- RENDERED text of the inner result.
      match parseN f m input pos with
      | none => none
      | some .crash => some .crash
      | some .fail => some .fail
      | some (.ok r) => some (.ok (.mk (.Ignore m) pos (yyStr r) [] true))

/-- Loop of `Sequence.parse`: each sub-matcher is attempted at
`pos + len(result)` where `result` is the accumulator node; a `None`
child aborts with `None`; `result += tmp` goes through `__add__`, whose
`Undefined` outcome would poison the remainder of the loop (modelled as
a crash; it is provably unreachable). -/
def seqGo : Nat → Symbol → List Symbol → List Char → Nat → YY → Option Res
  | 0, _, _, _, _, _ => none
  | f + 1, owner, l, input, pos, acc =>
    match l with
    | [] => some (.ok acc)
    | m :: ms =>
      match parseN f m input (pos + yyLen acc) with
      | none => none
      | some .crash => some .crash
      | some .fail => some .fail
      | some (.ok r) =>
        match yyAdd acc r with
        | none => some .crash
        | some acc' => seqGo f owner ms input pos acc'

/-- Loop of `Choice.parse`: alternatives are attempted at the same
position; the first success is wrapped as `YYtext(self, pos, '') + tmp`. -/
def choiceGo : Nat → Symbol → List Symbol → List Char → Nat → Option Res
  | 0, _, _, _, _ => none
  | f + 1, owner, l, input, pos =>
    match l with
    | [] => some .fail
    | m :: ms =>
      match parseN f m input pos with
      | none => none
      | some .crash => some .crash
      | some (.ok r) =>
        match yyAdd (.mk owner pos [] [] false) r with
        | none => some .crash
        | some w => some (.ok w)
      | some .fail => choiceGo f owner ms input pos

/-- Loop of `Star.parse`: keep matching the sub-matcher at
`pos + len(result)` while it succeeds with non-zero length; a failure or
a zero-length success ends the loop and the accumulated node is
returned. -/
def starGo : Nat → Symbol → List Char → YY → Option Res
  | 0, _, _, _ => none
  | f + 1, m, input, acc =>
    match parseN f m input (acc.pos + yyLen acc) with
    | none => none
    | some .crash => some .crash
    | some .fail => some (.ok acc)
    | some (.ok r) =>
      if yyLen r = 0 then some (.ok acc)
      else
        match yyAdd acc r with
        | none => some .crash
        | some acc' => starGo f m input acc'
end

end Peggy

namespace Peggy

theorem parseN_zero (s input pos) : parseN 0 s input pos = none := rfl

theorem parseN_str (f p input pos) :
    parseN (f + 1) (.Str p) input pos =
      (if (input.drop pos).length < p.length then some .fail
       else if (input.drop pos).take p.length ≠ p then some .fail
       else some (.ok (.mk (.Str p) pos p [] false))) := rfl

theorem parseN_dot (f input pos) :
    parseN (f + 1) .Dot input pos =
      (if pos = input.length then some .fail
       else if h : pos < input.length then
         some (.ok (.mk .Dot pos [input.get ⟨pos, h⟩] [] false))
       else some .crash) := rfl

theorem parseN_seq (f l input pos) :
    parseN (f + 1) (.Seq l) input pos =
      seqGo f (.Seq l) l input pos (.mk (.Seq l) pos [] [] false) := rfl

theorem parseN_choice_nil (f input pos) :
    parseN (f + 1) (.Choice []) input pos = some .crash := rfl

theorem parseN_choice_cons (f a as input pos) :
    parseN (f + 1) (.Choice (a :: as)) input pos =
      choiceGo f (.Choice (a :: as)) (a :: as) input pos := rfl

theorem parseN_star (f m input pos) :
    parseN (f + 1) (.Star m) input pos =
      starGo f m input (.mk (.Star m) pos [] [] false) := rfl

theorem parseN_plus (f m input pos) :
    parseN (f + 1) (.Plus m) input pos =
      parseN f (.Seq [m, .Star m]) input pos := rfl

theorem parseN_optional (f m input pos) :
    parseN (f + 1) (.Optional m) input pos =
      parseN f (.Choice [m, .Str []]) input pos := rfl

theorem parseN_and (f m input pos) :
    parseN (f + 1) (.And m) input pos =
      (match parseN f m input pos with
       | none => none
       | some .crash => some .crash
       | some .fail => some .fail
       | some (.ok _) => some (.ok (.mk (.And m) pos [] [] false))) := rfl

theorem parseN_not (f m input pos) :
    parseN (f + 1) (.Not m) input pos =
      (match parseN f m input pos with
       | none => none
       | some .crash => some .crash
       | some .fail => some (.ok (.mk (.Not m) pos [] [] false))
       | some (.ok _) => some .fail) := rfl

theorem parseN_ignore (f m input pos) :
    parseN (f + 1) (.Ignore m) input pos =
      (match parseN f m input pos with
       | none => none
       | some .crash => some .crash
       | some .fail => some .fail
       | some (.ok r) => some (.ok (.mk (.Ignore m) pos (yyStr r) [] true))) :=
  rfl

theorem seqGo_zero (owner l input pos acc) :
    seqGo 0 owner l input pos acc = none := rfl

theorem seqGo_nil (f owner input pos acc) :
    seqGo (f + 1) owner [] input pos acc = some (.ok acc) := rfl

theorem seqGo_cons (f owner m ms input pos acc) :
    seqGo (f + 1) owner (m :: ms) input pos acc =
      (match parseN f m input (pos + yyLen acc) with
       | none => none
       | some .crash => some .crash
       | some .fail => some .fail
       | some (.ok r) =>
         match yyAdd acc r with
         | none => some .crash
         | some acc' => seqGo f owner ms input pos acc') := rfl

theorem choiceGo_zero (owner l input pos) :
    choiceGo 0 owner l input pos = none := rfl

theorem choiceGo_nil (f owner input pos) :
    choiceGo (f + 1) owner [] input pos = some .fail := rfl

theorem choiceGo_cons (f owner m ms input pos) :
    choiceGo (f + 1) owner (m :: ms) input pos =
      (match parseN f m input pos with
       | none => none
       | some .crash => some .crash
       | some (.ok r) =>
         (match yyAdd (.mk owner pos [] [] false) r with
          | none => some .crash
          | some w => some (.ok w))
       | some .fail => choiceGo f owner ms input pos) := rfl

theorem starGo_zero (m input acc) : starGo 0 m input acc = none := rfl

theorem starGo_succ (f m input acc) :
    starGo (f + 1) m input acc =
      (match parseN f m input (acc.pos + yyLen acc) with
       | none => none
       | some .crash => some .crash
       | some .fail => some (.ok acc)
       | some (.ok r) =>
         if yyLen r = 0 then some (.ok acc)
         else
           match yyAdd acc r with
           | none => some .crash
           | some acc' => starGo f m input acc') := rfl

theorem mono_step : ∀ f : Nat,
    (∀ s input pos r, parseN f s input pos = some r →
      parseN (f + 1) s input pos = some r)
    ∧ (∀ owner l input pos acc r, seqGo f owner l input pos acc = some r →
      seqGo (f + 1) owner l input pos acc = some r)
    ∧ (∀ owner l input pos r, choiceGo f owner l input pos = some r →
      choiceGo (f + 1) owner l input pos = some r)
    ∧ (∀ m input acc r, starGo f m input acc = some r →
      starGo (f + 1) m input acc = some r) := by
  intro f
  induction f with
  | zero =>
    refine ⟨?_, ?_, ?_, ?_⟩ <;> intros <;>
      simp_all [parseN_zero, seqGo_zero, choiceGo_zero, starGo_zero]
  | succ f ih =>
    obtain ⟨ihP, ihSeq, ihCh, ihStar⟩ := ih
    refine ⟨?_, ?_, ?_, ?_⟩
    · intro s input pos r h
      cases s with
      | Str p => rwa [parseN_str] at h ⊢
      | Dot => rwa [parseN_dot] at h ⊢
      | Seq l =>
        rw [parseN_seq] at h ⊢
        exact ihSeq _ _ _ _ _ _ h
      | Choice l =>
        cases l with
        | nil => rwa [parseN_choice_nil] at h ⊢
        | cons a as =>
          rw [parseN_choice_cons] at h ⊢
          exact ihCh _ _ _ _ _ h
      | Star m =>
        rw [parseN_star] at h ⊢
        exact ihStar _ _ _ _ h
      | Plus m =>
        rw [parseN_plus] at h ⊢
        exact ihP _ _ _ _ h
      | Optional m =>
        rw [parseN_optional] at h ⊢
        exact ihP _ _ _ _ h
      | And m =>
        rw [parseN_and] at h ⊢
        cases hm : parseN f m input pos with
        | none => rw [hm] at h; exact absurd h (by simp)
        | some rm => rw [hm] at h; rw [ihP _ _ _ _ hm]; exact h
      | Not m =>
        rw [parseN_not] at h ⊢
        cases hm : parseN f m input pos with
        | none => rw [hm] at h; exact absurd h (by simp)
        | some rm => rw [hm] at h; rw [ihP _ _ _ _ hm]; exact h
      | Ignore m =>
        rw [parseN_ignore] at h ⊢
        cases hm : parseN f m input pos with
        | none => rw [hm] at h; exact absurd h (by simp)
        | some rm => rw [hm] at h; rw [ihP _ _ _ _ hm]; exact h
    · intro owner l input pos acc r h
      cases l with
      | nil => rwa [seqGo_nil] at h ⊢
      | cons m ms =>
        rw [seqGo_cons] at h ⊢
        cases hm : parseN f m input (pos + yyLen acc) with
        | none => rw [hm] at h; exact absurd h (by simp)
        | some rm =>
          rw [hm] at h; rw [ihP _ _ _ _ hm]
          cases rm with
          | crash => exact h
          | fail => exact h
          | ok rr =>
            simp only at h ⊢
            cases hadd : yyAdd acc rr with
            | none => rw [hadd] at h; exact h
            | some acc' => rw [hadd] at h; exact ihSeq _ _ _ _ _ _ h
    · intro owner l input pos r h
      cases l with
      | nil => rwa [choiceGo_nil] at h ⊢
      | cons m ms =>
        rw [choiceGo_cons] at h ⊢
        cases hm : parseN f m input pos with
        | none => rw [hm] at h; exact absurd h (by simp)
        | some rm =>
          rw [hm] at h; rw [ihP _ _ _ _ hm]
          cases rm with
          | crash => exact h
          | fail => exact ihCh _ _ _ _ _ h
          | ok rr => exact h
    · intro m input acc r h
      rw [starGo_succ] at h ⊢
      cases hm : parseN f m input (acc.pos + yyLen acc) with
      | none => rw [hm] at h; exact absurd h (by simp)
      | some rm =>
        rw [hm] at h; rw [ihP _ _ _ _ hm]
        cases rm with
        | crash => exact h
        | fail => exact h
        | ok rr =>
          simp only at h ⊢
          by_cases hz : yyLen rr = 0
          · simp only [hz, if_pos] at h ⊢; exact h
          · rw [if_neg hz] at h ⊢
            cases hadd : yyAdd acc rr with
            | none => rw [hadd] at h; exact h
            | some acc' => rw [hadd] at h; exact ihStar _ _ _ _ h

end Peggy

namespace Peggy

theorem parseN_le {f f' : Nat} (hle : f ≤ f') {s input pos r}
    (h : parseN f s input pos = some r) : parseN f' s input pos = some r := by
  induction hle with
  | refl => exact h
  | step _ ih => exact (mono_step _).1 _ _ _ _ ih

theorem seqGo_le {f f' : Nat} (hle : f ≤ f') {owner l input pos acc r}
    (h : seqGo f owner l input pos acc = some r) :
    seqGo f' owner l input pos acc = some r := by
  induction hle with
  | refl => exact h
  | step _ ih => exact (mono_step _).2.1 _ _ _ _ _ _ ih

theorem choiceGo_le {f f' : Nat} (hle : f ≤ f') {owner l input pos r}
    (h : choiceGo f owner l input pos = some r) :
    choiceGo f' owner l input pos = some r := by
  induction hle with
  | refl => exact h
  | step _ ih => exact (mono_step _).2.2.1 _ _ _ _ _ ih

theorem starGo_le {f f' : Nat} (hle : f ≤ f') {m input acc r}
    (h : starGo f m input acc = some r) : starGo f' m input acc = some r := by
  induction hle with
  | refl => exact h
  | step _ ih => exact (mono_step _).2.2.2 _ _ _ _ ih

@[simp] theorem YY.symbol_mk (s p t c i) : (YY.mk s p t c i).symbol = s := rfl
@[simp] theorem YY.pos_mk (s p t c i) : (YY.mk s p t c i).pos = p := rfl
@[simp] theorem YY.yytext_mk (s p t c i) : (YY.mk s p t c i).yytext = t := rfl
@[simp] theorem YY.child_mk (s p t c i) : (YY.mk s p t c i).child = c := rfl
@[simp] theorem YY.ign_mk (s p t c i) : (YY.mk s p t c i).ign = i := rfl

@[simp] theorem yyLen_mk (s p t c i) :
    yyLen (.mk s p t c i) = t.length + yyLenL c := rfl

@[simp] theorem yyLenL_nil : yyLenL [] = 0 := rfl

@[simp] theorem yyLenL_cons (x xs) : yyLenL (x :: xs) = yyLen x + yyLenL xs :=
  rfl

theorem yyLenL_append (xs ys : List YY) :
    yyLenL (xs ++ ys) = yyLenL xs + yyLenL ys := by
  induction xs with
  | nil => simp
  | cons x xs ih => simp [ih]; omega

@[simp] theorem yyStr_mk (s p t c i) :
    yyStr (.mk s p t c i) = if i then [] else t ++ yyStrL c := rfl

@[simp] theorem yyStrL_nil : yyStrL [] = [] := rfl

@[simp] theorem yyStrL_cons (x xs) : yyStrL (x :: xs) = yyStr x ++ yyStrL xs :=
  rfl

theorem yyStrL_append (xs ys : List YY) :
    yyStrL (xs ++ ys) = yyStrL xs ++ yyStrL ys := by
  induction xs with
  | nil => simp
  | cons x xs ih => simp [ih]

mutual
/-- Rendered text is never longer than consumed length. -/
def yyStr_length_le : ∀ y : YY, (yyStr y).length ≤ yyLen y
  | .mk s p t c b => by
    cases b with
    | true => simp
    | false =>
      rw [show yyStr (.mk s p t c false) = t ++ yyStrL c from rfl, yyLen_mk,
        List.length_append]
      exact Nat.add_le_add_left (yyStrL_length_le c) _

def yyStrL_length_le : ∀ l : List YY, (yyStrL l).length ≤ yyLenL l
  | [] => le_refl _
  | x :: xs => by
    simp only [yyStrL_cons, yyLenL_cons, List.length_append]
    exact Nat.add_le_add (yyStr_length_le x) (yyStrL_length_le xs)
end

theorem yyAdd_pos_eq {a b c : YY} (h : yyAdd a b = some c) :
    a.pos + yyLen a = b.pos ∧
      c = .mk a.symbol a.pos a.yytext (a.child ++ [b]) false := by
  unfold yyAdd at h
  split at h
  · exact ⟨by assumption, by simpa using h.symm⟩
  · exact absurd h (by simp)

theorem yyAdd_of_pos {a b : YY} (h : a.pos + yyLen a = b.pos) :
    yyAdd a b = some (.mk a.symbol a.pos a.yytext (a.child ++ [b]) false) := by
  unfold yyAdd
  rw [if_pos h]

/-- The append operation returns `Undefined` exactly when the appended
node's start position differs from the running end. -/
theorem yyAdd_none_iff (a b : YY) :
    yyAdd a b = none ↔ a.pos + yyLen a ≠ b.pos := by
  unfold yyAdd
  split <;> simp_all

theorem yyLen_add_mk (s : Symbol) (p : Nat) (t : List Char) (c : List YY)
    (i : Bool) (b : YY) :
    yyLen (.mk s p t (c ++ [b]) i) = yyLen (.mk s p t c i) + yyLen b := by
  simp [yyLenL_append]; omega

end Peggy

namespace Peggy

theorem some_ok_inj {a b : YY} (h : (some (Res.ok a) : Option Res) = some (.ok b)) :
    a = b := Res.ok.inj (Option.some.inj h)

theorem yyAdd_len {a b c : YY} (h : yyAdd a b = some c) :
    yyLen c = yyLen a + yyLen b := by
  obtain ⟨_, hc⟩ := yyAdd_pos_eq h
  subst hc
  cases a with
  | mk s p t cs i =>
    simp only [YY.symbol_mk, YY.pos_mk, YY.yytext_mk, YY.child_mk, yyLen_mk,
      yyLenL_append, yyLenL_cons, yyLenL_nil]
    omega

/-- Position/length invariant: a successful `parse` at `pos` yields a node
anchored at `pos` whose consumed length never reaches past the end of the
input (and is zero when `pos` is already at or past the end). -/
theorem len_inv : ∀ f : Nat,
    (∀ s input pos r, parseN f s input pos = some (.ok r) →
      r.pos = pos ∧ yyLen r ≤ input.length - pos)
    ∧ (∀ owner l input pos acc r, acc.pos = pos →
      yyLen acc ≤ input.length - pos →
      seqGo f owner l input pos acc = some (.ok r) →
      r.pos = pos ∧ yyLen r ≤ input.length - pos)
    ∧ (∀ owner l input pos r, choiceGo f owner l input pos = some (.ok r) →
      r.pos = pos ∧ yyLen r ≤ input.length - pos)
    ∧ (∀ m input acc r, yyLen acc ≤ input.length - acc.pos →
      starGo f m input acc = some (.ok r) →
      r.pos = acc.pos ∧ yyLen r ≤ input.length - acc.pos) := by
  intro f
  induction f with
  | zero =>
    refine ⟨?_, ?_, ?_, ?_⟩ <;> intros <;>
      simp_all [parseN_zero, seqGo_zero, choiceGo_zero, starGo_zero]
  | succ f ih =>
    obtain ⟨ihP, ihSeq, ihCh, ihStar⟩ := ih
    refine ⟨?_, ?_, ?_, ?_⟩
    · intro s input pos r h
      cases s with
      | Str p =>
        rw [parseN_str] at h
        split_ifs at h with h1 h2
        · exact absurd h (by simp)
        · exact absurd h (by simp)
        · obtain rfl := (some_ok_inj h).symm
          refine ⟨rfl, ?_⟩
          rw [List.length_drop, not_lt] at h1
          simp only [yyLen_mk, yyLenL_nil]
          omega
      | Dot =>
        rw [parseN_dot] at h
        split_ifs at h with h1 h2
        · exact absurd h (by simp)
        · obtain rfl := (some_ok_inj h).symm
          refine ⟨rfl, ?_⟩
          simp only [yyLen_mk, yyLenL_nil, List.length_cons, List.length_nil]
          omega
        · exact absurd h (by simp)
      | Seq l =>
        rw [parseN_seq] at h
        exact ihSeq (.Seq l) l input pos (.mk (.Seq l) pos [] [] false) r
          rfl (by simp) h
      | Choice l =>
        cases l with
        | nil => rw [parseN_choice_nil] at h; exact absurd h (by simp)
        | cons a as =>
          rw [parseN_choice_cons] at h
          exact ihCh _ _ _ _ _ h
      | Star m =>
        rw [parseN_star] at h
        have := ihStar m input (.mk (.Star m) pos [] [] false) r (by simp) h
        simpa using this
      | Plus m =>
        rw [parseN_plus] at h
        exact ihP _ _ _ _ h
      | Optional m =>
        rw [parseN_optional] at h
        exact ihP _ _ _ _ h
      | And m =>
        rw [parseN_and] at h
        cases hm : parseN f m input pos with
        | none => rw [hm] at h; exact absurd h (by simp)
        | some rm =>
          rw [hm] at h
          cases rm with
          | crash => exact absurd h (by simp)
          | fail => exact absurd h (by simp)
          | ok rr =>
            simp only at h
            obtain rfl := (some_ok_inj h).symm
            exact ⟨rfl, by simp⟩
      | Not m =>
        rw [parseN_not] at h
        cases hm : parseN f m input pos with
        | none => rw [hm] at h; exact absurd h (by simp)
        | some rm =>
          rw [hm] at h
          cases rm with
          | crash => exact absurd h (by simp)
          | fail =>
            simp only at h
            obtain rfl := (some_ok_inj h).symm
            exact ⟨rfl, by simp⟩
          | ok rr => exact absurd h (by simp)
      | Ignore m =>
        rw [parseN_ignore] at h
        cases hm : parseN f m input pos with
        | none => rw [hm] at h; exact absurd h (by simp)
        | some rm =>
          rw [hm] at h
          cases rm with
          | crash => exact absurd h (by simp)
          | fail => exact absurd h (by simp)
          | ok rr =>
            simp only at h
            obtain rfl := (some_ok_inj h).symm
            obtain ⟨_, hb⟩ := ihP _ _ _ _ hm
            have hs := yyStr_length_le rr
            refine ⟨rfl, ?_⟩
            simp only [yyLen_mk, yyLenL_nil]
            omega
    · intro owner l input pos acc r hpos hacc h
      cases l with
      | nil =>
        rw [seqGo_nil] at h
        obtain rfl := some_ok_inj h
        exact ⟨hpos, hacc⟩
      | cons m ms =>
        rw [seqGo_cons] at h
        cases hm : parseN f m input (pos + yyLen acc) with
        | none => rw [hm] at h; exact absurd h (by simp)
        | some rm =>
          rw [hm] at h
          cases rm with
          | crash => exact absurd h (by simp)
          | fail => exact absurd h (by simp)
          | ok rc =>
            simp only at h
            cases hadd : yyAdd acc rc with
            | none => rw [hadd] at h; exact absurd h (by simp)
            | some acc' =>
              rw [hadd] at h
              obtain ⟨hcpos, hb⟩ := ihP _ _ _ _ hm
              obtain ⟨hcontig, hshape⟩ := yyAdd_pos_eq hadd
              have hlen' := yyAdd_len hadd
              have hpos' : acc'.pos = pos := by rw [hshape]; simpa using hpos
              refine ihSeq owner ms input pos acc' r hpos' ?_ h
              omega
    · intro owner l input pos r h
      cases l with
      | nil =>
        rw [choiceGo_nil] at h
        exact absurd h (by simp)
      | cons m ms =>
        rw [choiceGo_cons] at h
        cases hm : parseN f m input pos with
        | none => rw [hm] at h; exact absurd h (by simp)
        | some rm =>
          rw [hm] at h
          cases rm with
          | crash => exact absurd h (by simp)
          | fail => exact ihCh _ _ _ _ _ h
          | ok rc =>
            simp only at h
            cases hadd : yyAdd (.mk owner pos [] [] false) rc with
            | none => rw [hadd] at h; exact absurd h (by simp)
            | some w =>
              rw [hadd] at h
              obtain rfl := (some_ok_inj h).symm
              obtain ⟨hcpos, hb⟩ := ihP _ _ _ _ hm
              obtain ⟨hcontig, hshape⟩ := yyAdd_pos_eq hadd
              have hlen' := yyAdd_len hadd
              have hpos' : r.pos = pos := by rw [hshape]; simp
              refine ⟨hpos', ?_⟩
              simp only [yyLen_mk, yyLenL_nil, List.length_nil] at hlen'
              omega
    · intro m input acc r hacc h
      rw [starGo_succ] at h
      cases hm : parseN f m input (acc.pos + yyLen acc) with
      | none => rw [hm] at h; exact absurd h (by simp)
      | some rm =>
        rw [hm] at h
        cases rm with
        | crash => exact absurd h (by simp)
        | fail =>
          simp only at h
          obtain rfl := some_ok_inj h
          exact ⟨rfl, hacc⟩
        | ok rc =>
          simp only at h
          by_cases hz : yyLen rc = 0
          · rw [if_pos hz] at h
            obtain rfl := some_ok_inj h
            exact ⟨rfl, hacc⟩
          · rw [if_neg hz] at h
            cases hadd : yyAdd acc rc with
            | none => rw [hadd] at h; exact absurd h (by simp)
            | some acc' =>
              rw [hadd] at h
              obtain ⟨hcpos, hb⟩ := ihP _ _ _ _ hm
              obtain ⟨hcontig, hshape⟩ := yyAdd_pos_eq hadd
              have hlen' := yyAdd_len hadd
              have hpos' : acc'.pos = acc.pos := by rw [hshape]; simp
              have hrec := ihStar m input acc' r (by rw [hpos']; omega) h
              rw [hpos'] at hrec
              exact hrec

end Peggy

namespace Peggy

mutual
/-- Well-formed matchers: no empty `Choice` anywhere.  `Choice()` with no
alternatives leaves the loop variable `tmp` unbound in `Choice.parse`, a
`NameError`; every other matcher shape is harmless. -/
def wf : Symbol → Bool
  | .Str _ => true
  | .Dot => true
  | .Seq l => wfL l
  | .Choice l => !l.isEmpty && wfL l
  | .Star m => wf m
  | .Plus m => wf m
  | .Optional m => wf m
  | .And m => wf m
  | .Not m => wf m
  | .Ignore m => wf m

def wfL : List Symbol → Bool
  | [] => true
  | x :: xs => wf x && wfL xs
end

@[simp] theorem wf_str (p) : wf (.Str p) = true := rfl
@[simp] theorem wf_dot : wf .Dot = true := rfl
@[simp] theorem wf_seq (l) : wf (.Seq l) = wfL l := rfl
@[simp] theorem wf_choice (l) : wf (.Choice l) = (!l.isEmpty && wfL l) := rfl
@[simp] theorem wf_star (m) : wf (.Star m) = wf m := rfl
@[simp] theorem wf_plus (m) : wf (.Plus m) = wf m := rfl
@[simp] theorem wf_optional (m) : wf (.Optional m) = wf m := rfl
@[simp] theorem wf_and (m) : wf (.And m) = wf m := rfl
@[simp] theorem wf_not (m) : wf (.Not m) = wf m := rfl
@[simp] theorem wf_ignore (m) : wf (.Ignore m) = wf m := rfl
@[simp] theorem wfL_nil : wfL [] = true := rfl
@[simp] theorem wfL_cons (x xs) : wfL (x :: xs) = (wf x && wfL xs) := rfl

/-- A well-formed matcher run at a position inside the input never raises:
the `Dot` index error needs `pos > len(input)`, the `Choice` name error
needs an empty alternative list, and the `Undefined` poisoning after
`__add__` needs a non-contiguous child, which the position invariant
rules out. -/
theorem no_crash : ∀ f : Nat,
    (∀ s input pos, wf s = true → pos ≤ input.length →
      parseN f s input pos ≠ some .crash)
    ∧ (∀ owner l input pos acc, wfL l = true → acc.pos = pos →
      yyLen acc ≤ input.length - pos → pos ≤ input.length →
      seqGo f owner l input pos acc ≠ some .crash)
    ∧ (∀ owner l input pos, wfL l = true → pos ≤ input.length →
      choiceGo f owner l input pos ≠ some .crash)
    ∧ (∀ m input acc, wf m = true →
      yyLen acc ≤ input.length - acc.pos → acc.pos ≤ input.length →
      starGo f m input acc ≠ some .crash) := by
  intro f
  induction f with
  | zero =>
    refine ⟨?_, ?_, ?_, ?_⟩ <;> intros <;>
      simp_all [parseN_zero, seqGo_zero, choiceGo_zero, starGo_zero]
  | succ f ih =>
    obtain ⟨ihP, ihSeq, ihCh, ihStar⟩ := ih
    refine ⟨?_, ?_, ?_, ?_⟩
    · intro s input pos hwf hpos h
      cases s with
      | Str p =>
        rw [parseN_str] at h
        split_ifs at h <;> simp_all
      | Dot =>
        rw [parseN_dot] at h
        split_ifs at h with h1 h2
        · simp_all
        · simp_all
        · omega
      | Seq l =>
        rw [parseN_seq] at h
        exact ihSeq (.Seq l) l input pos (.mk (.Seq l) pos [] [] false)
          (by simpa using hwf) rfl (by simp) hpos h
      | Choice l =>
        cases l with
        | nil => simp at hwf
        | cons a as =>
          rw [parseN_choice_cons] at h
          exact ihCh _ _ _ _ (by simpa using hwf) hpos h
      | Star m =>
        rw [parseN_star] at h
        exact ihStar m input _ (by simpa using hwf) (by simp) (by simpa) h
      | Plus m =>
        rw [parseN_plus] at h
        exact ihP _ _ _ (by simpa using hwf) hpos h
      | Optional m =>
        rw [parseN_optional] at h
        exact ihP _ _ _ (by simp; simpa using hwf) hpos h
      | And m =>
        rw [parseN_and] at h
        cases hm : parseN f m input pos with
        | none => rw [hm] at h; exact absurd h (by simp)
        | some rm =>
          rw [hm] at h
          cases rm with
          | crash => exact ihP _ _ _ (by simpa using hwf) hpos hm
          | fail => simp at h
          | ok rr => simp at h
      | Not m =>
        rw [parseN_not] at h
        cases hm : parseN f m input pos with
        | none => rw [hm] at h; exact absurd h (by simp)
        | some rm =>
          rw [hm] at h
          cases rm with
          | crash => exact ihP _ _ _ (by simpa using hwf) hpos hm
          | fail => simp at h
          | ok rr => simp at h
      | Ignore m =>
        rw [parseN_ignore] at h
        cases hm : parseN f m input pos with
        | none => rw [hm] at h; exact absurd h (by simp)
        | some rm =>
          rw [hm] at h
          cases rm with
          | crash => exact ihP _ _ _ (by simpa using hwf) hpos hm
          | fail => simp at h
          | ok rr => simp at h
    · intro owner l input pos acc hwf hpos hacc hposL h
      cases l with
      | nil => rw [seqGo_nil] at h; simp at h
      | cons m ms =>
        rw [seqGo_cons] at h
        simp only [wfL_cons, Bool.and_eq_true] at hwf
        cases hm : parseN f m input (pos + yyLen acc) with
        | none => rw [hm] at h; exact absurd h (by simp)
        | some rm =>
          rw [hm] at h
          cases rm with
          | crash =>
            refine ihP m input (pos + yyLen acc) hwf.1 ?_ hm
            omega
          | fail => simp at h
          | ok rc =>
            simp only at h
            obtain ⟨hcpos, hb⟩ := (len_inv f).1 _ _ _ _ hm
            have hadd : yyAdd acc rc =
                some (.mk acc.symbol acc.pos acc.yytext (acc.child ++ [rc])
                  false) := by
              apply yyAdd_of_pos
              rw [hcpos, hpos]
            rw [hadd] at h
            have hlen' := yyAdd_len hadd
            refine ihSeq owner ms input pos _ hwf.2 (by simp [hpos]) ?_ hposL h
            simp only [hlen']
            omega
    · intro owner l input pos hwf hpos h
      cases l with
      | nil => rw [choiceGo_nil] at h; simp at h
      | cons m ms =>
        rw [choiceGo_cons] at h
        simp only [wfL_cons, Bool.and_eq_true] at hwf
        cases hm : parseN f m input pos with
        | none => rw [hm] at h; exact absurd h (by simp)
        | some rm =>
          rw [hm] at h
          cases rm with
          | crash => exact ihP _ _ _ hwf.1 hpos hm
          | fail => exact ihCh _ _ _ _ hwf.2 hpos h
          | ok rc =>
            simp only at h
            obtain ⟨hcpos, hb⟩ := (len_inv f).1 _ _ _ _ hm
            have hadd : yyAdd (.mk owner pos [] [] false) rc =
                some (.mk owner pos [] ([] ++ [rc]) false) := by
              apply yyAdd_of_pos
              simp [hcpos]
            rw [hadd] at h
            simp at h
    · intro m input acc hwf hacc hpos h
      rw [starGo_succ] at h
      cases hm : parseN f m input (acc.pos + yyLen acc) with
      | none => rw [hm] at h; exact absurd h (by simp)
      | some rm =>
        rw [hm] at h
        cases rm with
        | crash =>
          refine ihP m input (acc.pos + yyLen acc) hwf ?_ hm
          omega
        | fail => simp at h
        | ok rc =>
          simp only at h
          by_cases hz : yyLen rc = 0
          · rw [if_pos hz] at h; simp at h
          · rw [if_neg hz] at h
            obtain ⟨hcpos, hb⟩ := (len_inv f).1 _ _ _ _ hm
            have hadd : yyAdd acc rc =
                some (.mk acc.symbol acc.pos acc.yytext (acc.child ++ [rc])
                  false) := by
              apply yyAdd_of_pos
              rw [hcpos]
            rw [hadd] at h
            have hlen' := yyAdd_len hadd
            refine ihStar m input _ hwf ?_ (by simp; omega) h
            simp only [hlen']
            simp only [YY.pos_mk]
            omega

end Peggy

namespace Peggy

mutual
/-- Fuel that always suffices for `parseN` on input of length `L`.  The
`Star` summand `L + 4` pays for the loop iterations (each consumes at
least one input character, by `len_inv`); `Plus` and `Optional` pay for
the delegated `Sequence`/`Choice` node. -/
def fuelFor (L : Nat) : Symbol → Nat
  | .Str _ => 1
  | .Dot => 1
  | .Seq l => 1 + fuelL L l
  | .Choice l => 1 + fuelL L l
  | .Star m => fuelFor L m + L + 4
  | .Plus m => 2 * fuelFor L m + L + 9
  | .Optional m => fuelFor L m + 6
  | .And m => fuelFor L m + 2
  | .Not m => fuelFor L m + 2
  | .Ignore m => fuelFor L m + 2

def fuelL (L : Nat) : List Symbol → Nat
  | [] => 1
  | x :: xs => 1 + fuelFor L x + fuelL L xs
end

@[simp] theorem fuelFor_str (L p) : fuelFor L (.Str p) = 1 := rfl
@[simp] theorem fuelFor_dot (L) : fuelFor L .Dot = 1 := rfl
@[simp] theorem fuelFor_seq (L l) : fuelFor L (.Seq l) = 1 + fuelL L l := rfl
@[simp] theorem fuelFor_choice (L l) :
    fuelFor L (.Choice l) = 1 + fuelL L l := rfl
@[simp] theorem fuelFor_star (L m) :
    fuelFor L (.Star m) = fuelFor L m + L + 4 := rfl
@[simp] theorem fuelFor_plus (L m) :
    fuelFor L (.Plus m) = 2 * fuelFor L m + L + 9 := rfl
@[simp] theorem fuelFor_optional (L m) :
    fuelFor L (.Optional m) = fuelFor L m + 6 := rfl
@[simp] theorem fuelFor_and (L m) : fuelFor L (.And m) = fuelFor L m + 2 := rfl
@[simp] theorem fuelFor_not (L m) : fuelFor L (.Not m) = fuelFor L m + 2 := rfl
@[simp] theorem fuelFor_ignore (L m) :
    fuelFor L (.Ignore m) = fuelFor L m + 2 := rfl
@[simp] theorem fuelL_nil (L) : fuelL L [] = 1 := rfl
@[simp] theorem fuelL_cons (L x xs) :
    fuelL L (x :: xs) = 1 + fuelFor L x + fuelL L xs := rfl

theorem adequacy_str (input : List Char) (p : List Char) (pos f : Nat)
    (hf : 1 ≤ f) : (parseN f (.Str p) input pos).isSome := by
  obtain ⟨g, rfl⟩ : ∃ g, f = g + 1 := ⟨f - 1, by omega⟩
  rw [parseN_str]
  split_ifs <;> simp

theorem adequacy_starGo (input : List Char) (m : Symbol)
    (hm : ∀ pos f, fuelFor input.length m ≤ f →
      (parseN f m input pos).isSome) :
    ∀ k f acc, input.length + 1 - (acc.pos + yyLen acc) ≤ k →
      fuelFor input.length m + 1 + k ≤ f → (starGo f m input acc).isSome := by
  intro k
  induction k using Nat.strong_induction_on with
  | _ k ihk =>
    intro f acc hk hf
    obtain ⟨g, rfl⟩ : ∃ g, f = g + 1 := ⟨f - 1, by omega⟩
    rw [starGo_succ]
    have hsome := hm (acc.pos + yyLen acc) g (by omega)
    rw [Option.isSome_iff_exists] at hsome
    obtain ⟨rm, hrm⟩ := hsome
    rw [hrm]
    cases rm with
    | crash => simp
    | fail => simp
    | ok rc =>
      simp only
      by_cases hz : yyLen rc = 0
      · rw [if_pos hz]; simp
      · rw [if_neg hz]
        obtain ⟨hcpos, hb⟩ := (len_inv g).1 _ _ _ _ hrm
        have hadd : yyAdd acc rc =
            some (.mk acc.symbol acc.pos acc.yytext (acc.child ++ [rc])
              false) := by
          apply yyAdd_of_pos
          rw [hcpos]
        rw [hadd]
        have hlen' := yyAdd_len hadd
        have hlt : acc.pos + yyLen acc < input.length := by omega
        refine ihk (k - 1) (by omega) g _ ?_ (by omega)
        simp only [hlen', YY.pos_mk]
        omega

theorem adequacy_starSym (input : List Char) (m : Symbol)
    (hm : ∀ pos f, fuelFor input.length m ≤ f →
      (parseN f m input pos).isSome) :
    ∀ pos f, fuelFor input.length (.Star m) ≤ f →
      (parseN f (.Star m) input pos).isSome := by
  intro pos f hf
  rw [fuelFor_star] at hf
  obtain ⟨g, rfl⟩ : ∃ g, f = g + 1 := ⟨f - 1, by omega⟩
  rw [parseN_star]
  refine adequacy_starGo input m hm (input.length + 1) g _ (by simp) (by omega)

theorem adequacy_seqGo (input : List Char) (l : List Symbol)
    (hl : ∀ m ∈ l, ∀ pos f, fuelFor input.length m ≤ f →
      (parseN f m input pos).isSome) :
    ∀ owner pos acc f, fuelL input.length l ≤ f →
      (seqGo f owner l input pos acc).isSome := by
  induction l with
  | nil =>
    intro owner pos acc f hf
    obtain ⟨g, rfl⟩ : ∃ g, f = g + 1 := ⟨f - 1, by simp at hf; omega⟩
    rw [seqGo_nil]; simp
  | cons m ms ih =>
    intro owner pos acc f hf
    rw [fuelL_cons] at hf
    obtain ⟨g, rfl⟩ : ∃ g, f = g + 1 := ⟨f - 1, by omega⟩
    rw [seqGo_cons]
    have hsome := hl m (by simp) (pos + yyLen acc) g (by omega)
    rw [Option.isSome_iff_exists] at hsome
    obtain ⟨rm, hrm⟩ := hsome
    rw [hrm]
    cases rm with
    | crash => simp
    | fail => simp
    | ok rc =>
      simp only
      cases hadd : yyAdd acc rc with
      | none => simp
      | some acc' =>
        exact ih (fun x hx => hl x (by simp [hx])) owner pos acc' g (by omega)

theorem adequacy_choiceGo (input : List Char) (l : List Symbol)
    (hl : ∀ m ∈ l, ∀ pos f, fuelFor input.length m ≤ f →
      (parseN f m input pos).isSome) :
    ∀ owner pos f, fuelL input.length l ≤ f →
      (choiceGo f owner l input pos).isSome := by
  induction l with
  | nil =>
    intro owner pos f hf
    obtain ⟨g, rfl⟩ : ∃ g, f = g + 1 := ⟨f - 1, by simp at hf; omega⟩
    rw [choiceGo_nil]; simp
  | cons m ms ih =>
    intro owner pos f hf
    rw [fuelL_cons] at hf
    obtain ⟨g, rfl⟩ : ∃ g, f = g + 1 := ⟨f - 1, by omega⟩
    rw [choiceGo_cons]
    have hsome := hl m (by simp) pos g (by omega)
    rw [Option.isSome_iff_exists] at hsome
    obtain ⟨rm, hrm⟩ := hsome
    rw [hrm]
    cases rm with
    | crash => simp
    | fail => exact ih (fun x hx => hl x (by simp [hx])) owner pos g (by omega)
    | ok rc =>
      simp only
      cases hadd : yyAdd (.mk owner pos [] [] false) rc with
      | none => simp
      | some w => simp

theorem forall_mem_pair {α : Type} {P : α → Prop} {a b : α} (ha : P a)
    (hb : P b) : ∀ x ∈ [a, b], P x := by
  intro x hx
  rcases List.mem_cons.mp hx with h | h
  · exact h ▸ ha
  · rcases List.mem_cons.mp h with h' | h'
    · exact h' ▸ hb
    · exact absurd h' (by simp)

mutual
/-- The fuel bound `fuelFor` always suffices: `parseN` with that much
fuel never runs out. -/
def adequacy : ∀ (s : Symbol) (input : List Char) (pos f : Nat),
    fuelFor input.length s ≤ f → (parseN f s input pos).isSome
  | .Str p, input, pos, f, hf => adequacy_str input p pos f (by simpa using hf)
  | .Dot, input, pos, f, hf => by
    obtain ⟨g, rfl⟩ : ∃ g, f = g + 1 := ⟨f - 1, by simp at hf; omega⟩
    rw [parseN_dot]
    split_ifs <;> simp
  | .Seq l, input, pos, f, hf => by
    rw [fuelFor_seq] at hf
    obtain ⟨g, rfl⟩ : ∃ g, f = g + 1 := ⟨f - 1, by omega⟩
    rw [parseN_seq]
    exact adequacy_seqGo input l (fun m hm => adequacyL l m hm input) _ _ _ g
      (by omega)
  | .Choice l, input, pos, f, hf => by
    rw [fuelFor_choice] at hf
    obtain ⟨g, rfl⟩ : ∃ g, f = g + 1 := ⟨f - 1, by omega⟩
    cases l with
    | nil => rw [parseN_choice_nil]; simp
    | cons a as =>
      rw [parseN_choice_cons]
      exact adequacy_choiceGo input (a :: as)
        (fun m hm => adequacyL (a :: as) m hm input) _ _ g (by omega)
  | .Star m, input, pos, f, hf =>
    adequacy_starSym input m (fun pos' f' => adequacy m input pos' f') pos f hf
  | .Plus m, input, pos, f, hf => by
    rw [fuelFor_plus] at hf
    obtain ⟨g, rfl⟩ : ∃ g, f = g + 1 := ⟨f - 1, by omega⟩
    rw [parseN_plus]
    obtain ⟨g', rfl⟩ : ∃ g', g = g' + 1 := ⟨g - 1, by omega⟩
    rw [parseN_seq]
    refine adequacy_seqGo input [m, .Star m]
      (forall_mem_pair (fun pos' f' => adequacy m input pos' f')
        (adequacy_starSym input m (fun pos' f' => adequacy m input pos' f')))
      _ _ _ g' (by simp; omega)
  | .Optional m, input, pos, f, hf => by
    rw [fuelFor_optional] at hf
    obtain ⟨g, rfl⟩ : ∃ g, f = g + 1 := ⟨f - 1, by omega⟩
    rw [parseN_optional]
    obtain ⟨g', rfl⟩ : ∃ g', g = g' + 1 := ⟨g - 1, by omega⟩
    rw [parseN_choice_cons]
    refine adequacy_choiceGo input [m, .Str []]
      (forall_mem_pair (fun pos' f' => adequacy m input pos' f')
        (fun pos' f' hf' => adequacy_str input [] pos' f'
          (by simpa using hf')))
      _ _ g' (by simp; omega)
  | .And m, input, pos, f, hf => by
    rw [fuelFor_and] at hf
    obtain ⟨g, rfl⟩ : ∃ g, f = g + 1 := ⟨f - 1, by omega⟩
    rw [parseN_and]
    have hsome := adequacy m input pos g (by omega)
    rw [Option.isSome_iff_exists] at hsome
    obtain ⟨rm, hrm⟩ := hsome
    rw [hrm]
    cases rm <;> simp
  | .Not m, input, pos, f, hf => by
    rw [fuelFor_not] at hf
    obtain ⟨g, rfl⟩ : ∃ g, f = g + 1 := ⟨f - 1, by omega⟩
    rw [parseN_not]
    have hsome := adequacy m input pos g (by omega)
    rw [Option.isSome_iff_exists] at hsome
    obtain ⟨rm, hrm⟩ := hsome
    rw [hrm]
    cases rm <;> simp
  | .Ignore m, input, pos, f, hf => by
    rw [fuelFor_ignore] at hf
    obtain ⟨g, rfl⟩ : ∃ g, f = g + 1 := ⟨f - 1, by omega⟩
    rw [parseN_ignore]
    have hsome := adequacy m input pos g (by omega)
    rw [Option.isSome_iff_exists] at hsome
    obtain ⟨rm, hrm⟩ := hsome
    rw [hrm]
    cases rm <;> simp
termination_by s input pos f hf => sizeOf s

def adequacyL : ∀ (l : List Symbol), ∀ m ∈ l, ∀ (input : List Char)
    (pos f : Nat), fuelFor input.length m ≤ f →
    (parseN f m input pos).isSome
  | [], m, hm => absurd hm (by simp)
  | x :: xs, m, hm => by
    rcases List.mem_cons.mp hm with h | h
    · exact fun input pos f hf => h ▸ adequacy x input pos f (h ▸ hf)
    · exact adequacyL xs m h
termination_by l m hm => sizeOf l
end

end Peggy

namespace Peggy

/-- Total semantics of a single recognition attempt: `Symbol.parse` (and
equivalently `Symbol.match` on a session whose memo table is coherent,
see the memoized layer), run with enough fuel.  By `adequacy` the
default-value branch is never taken. -/
def pegMatch (s : Symbol) (input : List Char) (pos : Nat) : Res :=
  (parseN (fuelFor input.length s) s input pos).getD .crash

theorem pegMatch_spec (s : Symbol) (input : List Char) (pos : Nat) :
    parseN (fuelFor input.length s) s input pos =
      some (pegMatch s input pos) := by
  have h := adequacy s input pos (fuelFor input.length s) le_rfl
  rw [Option.isSome_iff_exists] at h
  obtain ⟨r, hr⟩ := h
  rw [pegMatch, hr]
  rfl

theorem parseN_pegMatch (f : Nat) {s input pos r}
    (h : parseN f s input pos = some r) : pegMatch s input pos = r := by
  rcases Nat.le_total f (fuelFor input.length s) with hle | hle
  · have h2 := parseN_le hle h
    rw [pegMatch, h2]
    rfl
  · have h2 := parseN_le hle (pegMatch_spec s input pos)
    rw [h2] at h
    exact Option.some.inj h

theorem pegMatch_at {f : Nat} {s input pos}
    (hf : fuelFor input.length s ≤ f) :
    parseN f s input pos = some (pegMatch s input pos) :=
  parseN_le hf (pegMatch_spec s input pos)

/-- Successful matches are anchored at the attempted position and consume
at most the remaining input. -/
theorem pegMatch_ok {s input pos r} (h : pegMatch s input pos = .ok r) :
    r.pos = pos ∧ yyLen r ≤ input.length - pos := by
  have h2 := pegMatch_spec s input pos
  rw [h] at h2
  exact (len_inv _).1 _ _ _ _ h2

/-- A well-formed matcher attempted inside the input never raises. -/
theorem pegMatch_no_crash {s : Symbol} {input : List Char} {pos : Nat}
    (hwf : wf s = true) (hpos : pos ≤ input.length) :
    pegMatch s input pos ≠ .crash := by
  intro h
  have h2 := pegMatch_spec s input pos
  rw [h] at h2
  exact (no_crash _).1 _ _ _ hwf hpos h2

theorem pegMatch_str (p : List Char) (input : List Char) (pos : Nat) :
    pegMatch (.Str p) input pos =
      (if (input.drop pos).take p.length = p
       then .ok (.mk (.Str p) pos p [] false) else .fail) := by
  apply parseN_pegMatch 1
  rw [parseN_str]
  by_cases h1 : (input.drop pos).length < p.length
  · have hne : (input.drop pos).take p.length ≠ p := by
      intro he
      have hlen := congrArg List.length he
      rw [List.length_take] at hlen
      omega
    rw [if_pos h1, if_neg hne]
  · rw [if_neg h1]
    by_cases h2 : (input.drop pos).take p.length = p
    · rw [if_neg (by simp [h2]), if_pos h2]
    · rw [if_pos h2, if_neg h2]

theorem pegMatch_dot (input : List Char) (pos : Nat) :
    pegMatch .Dot input pos =
      (if pos = input.length then .fail
       else if h : pos < input.length then
         .ok (.mk .Dot pos [input.get ⟨pos, h⟩] [] false)
       else .crash) := by
  apply parseN_pegMatch 1
  rw [parseN_dot]
  split_ifs <;> rfl

theorem pegMatch_and (m : Symbol) (input : List Char) (pos : Nat) :
    pegMatch (.And m) input pos =
      (match pegMatch m input pos with
       | .crash => .crash
       | .fail => .fail
       | .ok _ => .ok (.mk (.And m) pos [] [] false)) := by
  apply parseN_pegMatch (fuelFor input.length m + 1)
  rw [parseN_and, pegMatch_at le_rfl]
  cases pegMatch m input pos <;> rfl

theorem pegMatch_not (m : Symbol) (input : List Char) (pos : Nat) :
    pegMatch (.Not m) input pos =
      (match pegMatch m input pos with
       | .crash => .crash
       | .fail => .ok (.mk (.Not m) pos [] [] false)
       | .ok _ => .fail) := by
  apply parseN_pegMatch (fuelFor input.length m + 1)
  rw [parseN_not, pegMatch_at le_rfl]
  cases pegMatch m input pos <;> rfl

theorem pegMatch_ignore (m : Symbol) (input : List Char) (pos : Nat) :
    pegMatch (.Ignore m) input pos =
      (match pegMatch m input pos with
       | .crash => .crash
       | .fail => .fail
       | .ok r => .ok (.mk (.Ignore m) pos (yyStr r) [] true)) := by
  apply parseN_pegMatch (fuelFor input.length m + 1)
  rw [parseN_ignore, pegMatch_at le_rfl]
  cases pegMatch m input pos <;> rfl

/-- `Plus.parse` delegates to the `Sequence(symbol, Star(symbol))`
built at construction time. -/
theorem pegMatch_plus (m : Symbol) (input : List Char) (pos : Nat) :
    pegMatch (.Plus m) input pos =
      pegMatch (.Seq [m, .Star m]) input pos := by
  apply parseN_pegMatch (fuelFor input.length (.Seq [m, .Star m]) + 1)
  rw [parseN_plus]
  exact pegMatch_spec _ input pos

/-- `Optional.parse` delegates to the `Choice(symbol, String(''))`
built at construction time. -/
theorem pegMatch_optional (m : Symbol) (input : List Char) (pos : Nat) :
    pegMatch (.Optional m) input pos =
      pegMatch (.Choice [m, .Str []]) input pos := by
  apply parseN_pegMatch (fuelFor input.length (.Choice [m, .Str []]) + 1)
  rw [parseN_optional]
  exact pegMatch_spec _ input pos

end Peggy

namespace Peggy

/-- Outcome of running a list of sub-matchers in sequence: the list of
child results, or the first failure, or a crash. -/
inductive ResL : Type where
  | crash
  | fail
  | ok (rs : List YY)

/-- Reference recursion for `Sequence`: run each sub-matcher at the
position given by the start plus the arithmetic sum of the consumed
lengths of the already-matched prefix, collecting results in order. -/
def seqResults (input : List Char) : List Symbol → Nat → ResL
  | [], _ => .ok []
  | m :: ms, p =>
    match pegMatch m input p with
    | .crash => .crash
    | .fail => .fail
    | .ok r =>
      match seqResults input ms (p + yyLen r) with
      | .crash => .crash
      | .fail => .fail
      | .ok rs => .ok (r :: rs)

/-- Reference recursion for `Choice`: first success at the shared start
position, failure only when every alternative fails. -/
def chResults (input : List Char) : List Symbol → Nat → Res
  | [], _ => .fail
  | m :: ms, p =>
    match pegMatch m input p with
    | .crash => .crash
    | .fail => chResults input ms p
    | .ok r => .ok r

theorem seqGo_spec (input : List Char) :
    ∀ (l : List Symbol) (f : Nat) (owner s0 : Symbol) (pos : Nat)
      (t0 : List Char) (cs : List YY), fuelL input.length l ≤ f →
      seqGo f owner l input pos (.mk s0 pos t0 cs false) =
        some (match seqResults input l (pos + yyLen (.mk s0 pos t0 cs false))
              with
          | .crash => .crash
          | .fail => .fail
          | .ok rs => .ok (.mk s0 pos t0 (cs ++ rs) false)) := by
  intro l
  induction l with
  | nil =>
    intro f owner s0 pos t0 cs hf
    obtain ⟨g, rfl⟩ : ∃ g, f = g + 1 := ⟨f - 1, by simp at hf; omega⟩
    rw [seqGo_nil]
    simp [seqResults]
  | cons m ms ih =>
    intro f owner s0 pos t0 cs hf
    rw [fuelL_cons] at hf
    obtain ⟨g, rfl⟩ : ∃ g, f = g + 1 := ⟨f - 1, by omega⟩
    rw [seqGo_cons, pegMatch_at (by omega)]
    simp only [seqResults, YY.pos_mk]
    cases hpm : pegMatch m input (pos + yyLen (.mk s0 pos t0 cs false)) with
    | crash => rfl
    | fail => rfl
    | ok rc =>
      simp only
      obtain ⟨hcpos, _⟩ := pegMatch_ok hpm
      have hadd : yyAdd (.mk s0 pos t0 cs false) rc =
          some (.mk s0 pos t0 (cs ++ [rc]) false) := by
        have := yyAdd_of_pos (a := .mk s0 pos t0 cs false) (b := rc)
          (by rw [hcpos]; simp)
        simpa using this
      rw [hadd]
      show seqGo g owner ms input pos (.mk s0 pos t0 (cs ++ [rc]) false) = _
      have hlen : yyLen (.mk s0 pos t0 (cs ++ [rc]) false) =
          yyLen (.mk s0 pos t0 cs false) + yyLen rc := by
        simp [yyLenL_append]
        omega
      have hrec := ih g owner s0 pos t0 (cs ++ [rc]) (by omega)
      rw [hlen, ← Nat.add_assoc] at hrec
      rw [hrec]
      cases seqResults input ms
          (pos + yyLen (.mk s0 pos t0 cs false) + yyLen rc) with
      | crash => rfl
      | fail => rfl
      | ok rs => simp [List.append_assoc]

end Peggy

namespace Peggy

/-- Characterization of `Sequence.parse`: the node collects exactly the
sub-results produced at the arithmetically accumulated positions, and any
sub-failure makes the whole sequence fail with no partial node. -/
theorem pegMatch_seq (l : List Symbol) (input : List Char) (pos : Nat) :
    pegMatch (.Seq l) input pos =
      (match seqResults input l pos with
       | .crash => .crash
       | .fail => .fail
       | .ok rs => .ok (.mk (.Seq l) pos [] rs false)) := by
  apply parseN_pegMatch (fuelL input.length l + 1)
  rw [parseN_seq]
  have := seqGo_spec input l (fuelL input.length l) (.Seq l) (.Seq l) pos [] []
    le_rfl
  rw [this]
  simp

theorem choiceGo_spec (input : List Char) :
    ∀ (l : List Symbol) (f : Nat) (owner : Symbol) (pos : Nat),
      fuelL input.length l ≤ f →
      choiceGo f owner l input pos =
        some (match chResults input l pos with
          | .crash => .crash
          | .fail => .fail
          | .ok r => .ok (.mk owner pos [] [r] false)) := by
  intro l
  induction l with
  | nil =>
    intro f owner pos hf
    obtain ⟨g, rfl⟩ : ∃ g, f = g + 1 := ⟨f - 1, by simp at hf; omega⟩
    rw [choiceGo_nil]
    simp [chResults]
  | cons m ms ih =>
    intro f owner pos hf
    rw [fuelL_cons] at hf
    obtain ⟨g, rfl⟩ : ∃ g, f = g + 1 := ⟨f - 1, by omega⟩
    rw [choiceGo_cons, pegMatch_at (by omega)]
    simp only [chResults]
    cases hpm : pegMatch m input pos with
    | crash => rfl
    | fail => exact ih g owner pos (by omega)
    | ok rc =>
      simp only
      obtain ⟨hcpos, _⟩ := pegMatch_ok hpm
      have hadd : yyAdd (.mk owner pos [] [] false) rc =
          some (.mk owner pos [] ([] ++ [rc]) false) := by
        apply yyAdd_of_pos
        rw [hcpos]
        simp
      rw [hadd]
      simp

/-- Characterization of `Choice.parse` on a non-empty alternative list:
the first success, wrapped as a single child of a fresh `Choice`-owned
node; failure only when every alternative fails. -/
theorem pegMatch_choice (a : Symbol) (as : List Symbol) (input : List Char)
    (pos : Nat) :
    pegMatch (.Choice (a :: as)) input pos =
      (match chResults input (a :: as) pos with
       | .crash => .crash
       | .fail => .fail
       | .ok r => .ok (.mk (.Choice (a :: as)) pos [] [r] false)) := by
  apply parseN_pegMatch (fuelL input.length (a :: as) + 1)
  rw [parseN_choice_cons]
  exact choiceGo_spec input (a :: as) _ _ pos le_rfl

end Peggy

namespace Peggy

/-- The repetitions collected by a `Star` node: each child is the result
of matching the sub-matcher at the position immediately after the
previous repetition. -/
def starChain (m : Symbol) (input : List Char) : Nat → List YY → Prop
  | _, [] => True
  | p, c :: cs => pegMatch m input p = .ok c ∧ starChain m input (p + yyLen c) cs

theorem starGo_chain (m : Symbol) (input : List Char) (hwf : wf m = true) :
    ∀ (k f : Nat) (s0 : Symbol) (p0 : Nat) (t0 : List Char) (cs : List YY),
      p0 ≤ input.length →
      yyLen (.mk s0 p0 t0 cs false) ≤ input.length - p0 →
      input.length + 1 - (p0 + yyLen (.mk s0 p0 t0 cs false)) ≤ k →
      fuelFor input.length m + 1 + k ≤ f →
      ∃ rs, starGo f m input (.mk s0 p0 t0 cs false) =
          some (.ok (.mk s0 p0 t0 (cs ++ rs) false))
        ∧ starChain m input (p0 + yyLen (.mk s0 p0 t0 cs false)) rs
        ∧ (∀ c ∈ rs, 0 < yyLen c)
        ∧ (pegMatch m input (p0 + yyLen (.mk s0 p0 t0 (cs ++ rs) false)) =
            .fail
           ∨ ∃ r0, pegMatch m input
               (p0 + yyLen (.mk s0 p0 t0 (cs ++ rs) false)) = .ok r0
             ∧ yyLen r0 = 0) := by
  intro k
  induction k using Nat.strong_induction_on with
  | _ k ihk =>
    intro f s0 p0 t0 cs hp0 hacc hk hf
    obtain ⟨g, rfl⟩ : ∃ g, f = g + 1 := ⟨f - 1, by omega⟩
    rw [starGo_succ]
    rw [pegMatch_at (show fuelFor input.length m ≤ g by omega)]
    simp only [YY.pos_mk]
    cases hpm : pegMatch m input (p0 + yyLen (.mk s0 p0 t0 cs false)) with
    | crash =>
      exact absurd hpm (pegMatch_no_crash hwf (by omega))
    | fail =>
      refine ⟨[], by simp, ?_, by simp, by rw [List.append_nil]; exact .inl hpm⟩
      simp [starChain]
    | ok rc =>
      simp only
      by_cases hz : yyLen rc = 0
      · rw [if_pos hz]
        refine ⟨[], by simp, ?_, by simp, ?_⟩
        · simp [starChain]
        · rw [List.append_nil]
          exact .inr ⟨rc, hpm, hz⟩
      · rw [if_neg hz]
        obtain ⟨hcpos, hcb⟩ := pegMatch_ok hpm
        have hadd : yyAdd (.mk s0 p0 t0 cs false) rc =
            some (.mk s0 p0 t0 (cs ++ [rc]) false) := by
          have := yyAdd_of_pos (a := .mk s0 p0 t0 cs false) (b := rc)
            (by rw [hcpos]; simp)
          simpa using this
        rw [hadd]
        have hlen : yyLen (.mk s0 p0 t0 (cs ++ [rc]) false) =
            yyLen (.mk s0 p0 t0 cs false) + yyLen rc := by
          simp [yyLenL_append]
          omega
        have hq : p0 + yyLen (.mk s0 p0 t0 cs false) < input.length := by
          omega
        obtain ⟨rs, hgo, hchain, hposv, hexit⟩ :=
          ihk (k - 1) (by omega) g s0 p0 t0 (cs ++ [rc]) hp0
            (by rw [hlen]; omega) (by rw [hlen]; omega) (by omega)
        refine ⟨rc :: rs, ?_, ?_, ?_, ?_⟩
        · show starGo g m input (.mk s0 p0 t0 (cs ++ [rc]) false) = _
          rw [hgo]
          simp [List.append_assoc]
        · rw [starChain]
          refine ⟨hpm, ?_⟩
          rw [hlen] at hchain
          rw [← Nat.add_assoc] at hchain
          exact hchain
        · intro c hc
          rcases List.mem_cons.mp hc with h | h
          · subst h; omega
          · exact hposv c h
        · have : (cs ++ [rc]) ++ rs = cs ++ (rc :: rs) := by
            simp [List.append_assoc]
          rw [this] at hexit
          exact hexit

end Peggy

namespace Peggy

/-- Top-level characterization of `Star.parse` at a position inside the
input: it always returns a node whose children are a maximal chain of
non-empty repetitions, and the loop stopped because the next repetition
failed or matched zero length. -/
theorem pegMatch_star_chain (m : Symbol) (input : List Char) (pos : Nat)
    (hwf : wf m = true) (hpos : pos ≤ input.length) :
    ∃ rs, pegMatch (.Star m) input pos = .ok (.mk (.Star m) pos [] rs false)
      ∧ starChain m input pos rs
      ∧ (∀ c ∈ rs, 0 < yyLen c)
      ∧ (pegMatch m input (pos + yyLenL rs) = .fail
         ∨ ∃ r0, pegMatch m input (pos + yyLenL rs) = .ok r0
             ∧ yyLen r0 = 0) := by
  obtain ⟨rs, hgo, hchain, hposv, hexit⟩ := starGo_chain m input hwf
    (input.length + 1) (fuelFor input.length m + 1 + (input.length + 1))
    (.Star m) pos [] [] hpos (by simp) (by simp) le_rfl
  refine ⟨rs, ?_, ?_, hposv, ?_⟩
  · apply parseN_pegMatch (fuelFor input.length m + 1 + (input.length + 1) + 1)
    rw [parseN_star, hgo]
    simp
  · simpa using hchain
  · simpa using hexit

mutual
/-- A node contains no ignored span: neither it nor any descendant is
flagged as a `YYignore`. -/
def ignFree : YY → Bool
  | .mk _ _ _ c b => !b && ignFreeL c

def ignFreeL : List YY → Bool
  | [] => true
  | x :: xs => ignFree x && ignFreeL xs
end

mutual
/-- For a node with no ignored spans, the rendered text has exactly the
consumed length. -/
def yyStr_length_ignFree : ∀ y : YY, ignFree y = true →
    (yyStr y).length = yyLen y
  | .mk s p t c b, h => by
    have hb : b = false := by
      have := h
      unfold ignFree at this
      simp at this
      exact this.1
    subst hb
    have hc : ignFreeL c = true := by
      have := h
      unfold ignFree at this
      simp at this
      exact this
    rw [show yyStr (.mk s p t c false) = t ++ yyStrL c from rfl, yyLen_mk,
      List.length_append]
    rw [yyStrL_length_ignFree c hc]

def yyStrL_length_ignFree : ∀ l : List YY, ignFreeL l = true →
    (yyStrL l).length = yyLenL l
  | [], _ => rfl
  | x :: xs, h => by
    have hx : ignFree x = true := by
      have := h
      unfold ignFreeL at this
      simp at this
      exact this.1
    have hxs : ignFreeL xs = true := by
      have := h
      unfold ignFreeL at this
      simp at this
      exact this.2
    rw [yyStrL_cons, yyLenL_cons, List.length_append,
      yyStr_length_ignFree x hx, yyStrL_length_ignFree xs hxs]
end

end Peggy

namespace Peggy

theorem seqGo_isSome (input : List Char) (l : List Symbol) (owner : Symbol)
    (pos : Nat) (acc : YY) (f : Nat) (hf : fuelL input.length l ≤ f) :
    (seqGo f owner l input pos acc).isSome :=
  adequacy_seqGo input l (fun m hm => adequacyL l m hm input) owner pos acc f
    hf

theorem choiceGo_isSome (input : List Char) (l : List Symbol) (owner : Symbol)
    (pos : Nat) (f : Nat) (hf : fuelL input.length l ≤ f) :
    (choiceGo f owner l input pos).isSome :=
  adequacy_choiceGo input l (fun m hm => adequacyL l m hm input) owner pos f hf

theorem starGo_isSome (input : List Char) (m : Symbol) (acc : YY) (f : Nat)
    (hf : fuelFor input.length m + input.length + 2 ≤ f) :
    (starGo f m input acc).isSome :=
  adequacy_starGo input m (fun pos' f' => adequacy m input pos' f')
    (input.length + 1) f acc (by omega) (by omega)

/-- Total value of the `Sequence.parse` loop from a given accumulator. -/
def seqRun (owner : Symbol) (l : List Symbol) (input : List Char) (pos : Nat)
    (acc : YY) : Res :=
  (seqGo (fuelL input.length l) owner l input pos acc).getD .crash

/-- Total value of the `Choice.parse` loop. -/
def chRun (owner : Symbol) (l : List Symbol) (input : List Char)
    (pos : Nat) : Res :=
  (choiceGo (fuelL input.length l) owner l input pos).getD .crash

/-- Total value of the `Star.parse` loop from a given accumulator. -/
def starRun (m : Symbol) (input : List Char) (acc : YY) : Res :=
  (starGo (fuelFor input.length m + input.length + 2) m input acc).getD .crash

theorem seqRun_spec (owner l input pos acc) :
    seqGo (fuelL input.length l) owner l input pos acc =
      some (seqRun owner l input pos acc) := by
  have h := seqGo_isSome input l owner pos acc _ le_rfl
  rw [Option.isSome_iff_exists] at h
  obtain ⟨r, hr⟩ := h
  rw [seqRun, hr]
  rfl

theorem seqGo_seqRun (f : Nat) {owner l input pos acc r}
    (h : seqGo f owner l input pos acc = some r) :
    seqRun owner l input pos acc = r := by
  rcases Nat.le_total f (fuelL input.length l) with hle | hle
  · have h2 := seqGo_le hle h
    rw [seqRun, h2]
    rfl
  · have h2 := seqGo_le hle (seqRun_spec owner l input pos acc)
    rw [h2] at h
    exact Option.some.inj h

theorem chRun_spec (owner l input pos) :
    choiceGo (fuelL input.length l) owner l input pos =
      some (chRun owner l input pos) := by
  have h := choiceGo_isSome input l owner pos _ le_rfl
  rw [Option.isSome_iff_exists] at h
  obtain ⟨r, hr⟩ := h
  rw [chRun, hr]
  rfl

theorem choiceGo_chRun (f : Nat) {owner l input pos r}
    (h : choiceGo f owner l input pos = some r) :
    chRun owner l input pos = r := by
  rcases Nat.le_total f (fuelL input.length l) with hle | hle
  · have h2 := choiceGo_le hle h
    rw [chRun, h2]
    rfl
  · have h2 := choiceGo_le hle (chRun_spec owner l input pos)
    rw [h2] at h
    exact Option.some.inj h

theorem starRun_spec (m input acc) :
    starGo (fuelFor input.length m + input.length + 2) m input acc =
      some (starRun m input acc) := by
  have h := starGo_isSome input m acc _ le_rfl
  rw [Option.isSome_iff_exists] at h
  obtain ⟨r, hr⟩ := h
  rw [starRun, hr]
  rfl

theorem starGo_starRun (f : Nat) {m input acc r}
    (h : starGo f m input acc = some r) : starRun m input acc = r := by
  rcases Nat.le_total f (fuelFor input.length m + input.length + 2) with
    hle | hle
  · have h2 := starGo_le hle h
    rw [starRun, h2]
    rfl
  · have h2 := starGo_le hle (starRun_spec m input acc)
    rw [h2] at h
    exact Option.some.inj h

theorem seqRun_nil (owner input pos acc) :
    seqRun owner [] input pos acc = .ok acc :=
  seqGo_seqRun 1 (seqGo_nil 0 owner input pos acc)

theorem seqRun_cons (owner m ms input pos acc) :
    seqRun owner (m :: ms) input pos acc =
      (match pegMatch m input (pos + yyLen acc) with
       | .crash => .crash
       | .fail => .fail
       | .ok rc =>
         match yyAdd acc rc with
         | none => .crash
         | some acc' => seqRun owner ms input pos acc') := by
  apply seqGo_seqRun (fuelL input.length (m :: ms))
  rw [show fuelL input.length (m :: ms) =
    (fuelFor input.length m + fuelL input.length ms) + 1 by simp; omega]
  rw [seqGo_cons, pegMatch_at (by omega)]
  cases pegMatch m input (pos + yyLen acc) with
  | crash => rfl
  | fail => rfl
  | ok rc =>
    simp only
    cases yyAdd acc rc with
    | none => rfl
    | some acc' =>
      simp only
      rw [seqGo_le (by omega) (seqRun_spec owner ms input pos acc')]

theorem chRun_nil (owner input pos) : chRun owner [] input pos = .fail :=
  choiceGo_chRun 1 (choiceGo_nil 0 owner input pos)

theorem chRun_cons (owner m ms input pos) :
    chRun owner (m :: ms) input pos =
      (match pegMatch m input pos with
       | .crash => .crash
       | .fail => chRun owner ms input pos
       | .ok rc =>
         match yyAdd (.mk owner pos [] [] false) rc with
         | none => .crash
         | some w => .ok w) := by
  apply choiceGo_chRun (fuelL input.length (m :: ms))
  rw [show fuelL input.length (m :: ms) =
    (fuelFor input.length m + fuelL input.length ms) + 1 by simp; omega]
  rw [choiceGo_cons, pegMatch_at (by omega)]
  cases pegMatch m input pos with
  | crash => rfl
  | fail =>
    simp only
    rw [choiceGo_le (by omega) (chRun_spec owner ms input pos)]
  | ok rc =>
    simp only
    cases yyAdd (.mk owner pos [] [] false) rc with
    | none => rfl
    | some w => rfl

theorem starRun_unfold (m input acc) :
    starRun m input acc =
      (match pegMatch m input (acc.pos + yyLen acc) with
       | .crash => .crash
       | .fail => .ok acc
       | .ok rc =>
         if yyLen rc = 0 then .ok acc
         else
           match yyAdd acc rc with
           | none => .crash
           | some acc' => starRun m input acc') := by
  apply starGo_starRun (fuelFor input.length m + input.length + 3)
  rw [show fuelFor input.length m + input.length + 3 =
    (fuelFor input.length m + input.length + 2) + 1 by omega]
  rw [starGo_succ, pegMatch_at (by omega)]
  cases pegMatch m input (acc.pos + yyLen acc) with
  | crash => rfl
  | fail => rfl
  | ok rc =>
    simp only
    by_cases hz : yyLen rc = 0
    · simp only [if_pos hz]
    · simp only [if_neg hz]
      cases yyAdd acc rc with
      | none => rfl
      | some acc' =>
        simp only
        rw [starGo_le (by omega) (starRun_spec m input acc')]

theorem pegMatch_seqRun (l input pos) :
    pegMatch (.Seq l) input pos =
      seqRun (.Seq l) l input pos (.mk (.Seq l) pos [] [] false) := by
  apply parseN_pegMatch (fuelL input.length l + 1)
  rw [parseN_seq]
  exact seqRun_spec _ _ _ _ _

theorem pegMatch_chRun (a as input pos) :
    pegMatch (.Choice (a :: as)) input pos =
      chRun (.Choice (a :: as)) (a :: as) input pos := by
  apply parseN_pegMatch (fuelL input.length (a :: as) + 1)
  rw [parseN_choice_cons]
  exact chRun_spec _ _ _ _

theorem pegMatch_starRun (m input pos) :
    pegMatch (.Star m) input pos =
      starRun m input (.mk (.Star m) pos [] [] false) := by
  apply parseN_pegMatch (fuelFor input.length m + input.length + 2 + 1)
  rw [parseN_star]
  exact starRun_spec _ _ _

end Peggy

namespace Peggy

/-- Association-list lookup keyed by (matcher, position). -/
def alookup {β : Type} : List ((Symbol × Nat) × β) → Symbol × Nat → Option β
  | [], _ => none
  | (k, v) :: rest, key => if k = key then some v else alookup rest key

/-- Session state: the memo table of `InputSeq`/`Memo` (a map from
(matcher identity, position) to `None`-or-node, absent keys returning
`Undefined`), together with two instrumentation counters for the number
of executions of the recognition routine `parse` per key: `cntM` counts
executions triggered by a `match` cache miss, `cntIgn` counts the direct
`self.symbol.parse(...)` invocations made by `Ignore.parse`, which bypass
the memo table. -/
structure St : Type where
  memo : List ((Symbol × Nat) × Option YY)
  cntM : List ((Symbol × Nat) × Nat)
  cntIgn : List ((Symbol × Nat) × Nat)

def St.empty : St := ⟨[], [], []⟩

def cntOf (l : List ((Symbol × Nat) × Nat)) (key : Symbol × Nat) : Nat :=
  (alookup l key).getD 0

def bumpKey (l : List ((Symbol × Nat) × Nat)) (key : Symbol × Nat) :
    List ((Symbol × Nat) × Nat) :=
  (key, cntOf l key + 1) :: l

def St.store (σ : St) (m : Symbol) (pos : Nat) (v : Option YY) : St :=
  ⟨((m, pos), v) :: σ.memo, σ.cntM, σ.cntIgn⟩

def St.bumpM (σ : St) (m : Symbol) (pos : Nat) : St :=
  ⟨σ.memo, bumpKey σ.cntM (m, pos), σ.cntIgn⟩

def St.bumpIgn (σ : St) (m : Symbol) (pos : Nat) : St :=
  ⟨σ.memo, σ.cntM, bumpKey σ.cntIgn (m, pos)⟩

/-- A memo-table entry turned back into an outcome: `None` is a cached
failure, a node is a cached success. -/
def resOfCached : Option YY → Res
  | none => .fail
  | some r => .ok r

/-- An outcome as it is stored by `Symbol.match` (a crash is never
stored: the exception propagates before the assignment runs). -/
def cacheOf : Res → Option YY
  | .crash => none
  | .fail => none
  | .ok r => some r

/-- Result of the leaf `String.parse` attempt. -/
def strVal (p : List Char) (input : List Char) (pos : Nat) : Res :=
  if (input.drop pos).length < p.length then .fail
  else if (input.drop pos).take p.length ≠ p then .fail
  else .ok (.mk (.Str p) pos p [] false)

/-- Result of the leaf `Dot.parse` attempt. -/
def dotVal (input : List Char) (pos : Nat) : Res :=
  if pos = input.length then .fail
  else if h : pos < input.length then
    .ok (.mk .Dot pos [input.get ⟨pos, h⟩] [] false)
  else .crash

theorem strVal_pegMatch (p input pos) :
    strVal p input pos = pegMatch (.Str p) input pos := by
  symm
  apply parseN_pegMatch 1
  rw [parseN_str, strVal]
  split_ifs <;> rfl

theorem dotVal_pegMatch (input pos) :
    dotVal input pos = pegMatch .Dot input pos := by
  rw [pegMatch_dot, dotVal]

mutual
/-- The memoized entry point `Symbol.match` with an explicit session
state: look up (matcher, position); on a hit return the cached outcome
unchanged; on a miss run `parse` (counted in `cntM`) and store the
outcome — unless it was an exception, which propagates before the
store executes. -/
def matchN : Nat → Symbol → List Char → Nat → St → Option (Res × St)
  | 0, _, _, _, _ => none
  | f + 1, m, input, pos, σ =>
    match alookup σ.memo (m, pos) with
    | some v => some (resOfCached v, σ)
    | none =>
      match parseB f m input pos (σ.bumpM m pos) with
      | none => none
      | some (.crash, σ') => some (.crash, σ')
      | some (.fail, σ') => some (.fail, σ'.store m pos none)
      | some (.ok r, σ') => some (.ok r, σ'.store m pos (some r))
termination_by structural f => f

/-- The recognition routines `*.parse` with explicit session state.
Children are invoked through `matchN` — except in the `Ignore` case,
which mirrors `Ignore.parse` calling `self.symbol.parse(...)` directly
(counted in `cntIgn`). -/
def parseB : Nat → Symbol → List Char → Nat → St → Option (Res × St)
  | 0, _, _, _, _ => none
  | f + 1, s, input, pos, σ =>
    match s with
    | .Str p => some (strVal p input pos, σ)
    | .Dot => some (dotVal input pos, σ)
    | .Seq l => seqGoB f (.Seq l) l input pos (.mk (.Seq l) pos [] [] false) σ
    | .Choice l =>
      match l with
      | [] => some (.crash, σ)
      | _ :: _ => choiceGoB f (.Choice l) l input pos σ
    | .Star m => starGoB f m input (.mk (.Star m) pos [] [] false) σ
    | .Plus m => matchN f (.Seq [m, .Star m]) input pos σ
    | .Optional m => matchN f (.Choice [m, .Str []]) input pos σ
    | .And m =>
      match matchN f m input pos σ with
      | none => none
      | some (.crash, σ') => some (.crash, σ')
      | some (.fail, σ') => some (.fail, σ')
      | some (.ok _, σ') => some (.ok (.mk (.And m) pos [] [] false), σ')
    | .Not m =>
      match matchN f m input pos σ with
      | none => none
      | some (.crash, σ') => some (.crash, σ')
      | some (.fail, σ') => some (.ok (.mk (.Not m) pos [] [] false), σ')
      | some (.ok _, σ') => some (.fail, σ')
    | .Ignore m =>
      match parseB f m input pos (σ.bumpIgn m pos) with
      | none => none
      | some (.crash, σ') => some (.crash, σ')
      | some (.fail, σ') => some (.fail, σ')
      | some (.ok r, σ') =>
        some (.ok (.mk (.Ignore m) pos (yyStr r) [] true), σ')
termination_by structural f => f

def seqGoB : Nat → Symbol → List Symbol → List Char → Nat → YY → St →
    Option (Res × St)
  | 0, _, _, _, _, _, _ => none
  | f + 1, owner, l, input, pos, acc, σ =>
    match l with
    | [] => some (.ok acc, σ)
    | m :: ms =>
      match matchN f m input (pos + yyLen acc) σ with
      | none => none
      | some (.crash, σ') => some (.crash, σ')
      | some (.fail, σ') => some (.fail, σ')
      | some (.ok r, σ') =>
        match yyAdd acc r with
        | none => some (.crash, σ')
        | some acc' => seqGoB f owner ms input pos acc' σ'
termination_by structural f => f

def choiceGoB : Nat → Symbol → List Symbol → List Char → Nat → St →
    Option (Res × St)
  | 0, _, _, _, _, _ => none
  | f + 1, owner, l, input, pos, σ =>
    match l with
    | [] => some (.fail, σ)
    | m :: ms =>
      match matchN f m input pos σ with
      | none => none
      | some (.crash, σ') => some (.crash, σ')
      | some (.ok r, σ') =>
        match yyAdd (.mk owner pos [] [] false) r with
        | none => some (.crash, σ')
        | some w => some (.ok w, σ')
      | some (.fail, σ') => choiceGoB f owner ms input pos σ'
termination_by structural f => f

def starGoB : Nat → Symbol → List Char → YY → St → Option (Res × St)
  | 0, _, _, _, _ => none
  | f + 1, m, input, acc, σ =>
    match matchN f m input (acc.pos + yyLen acc) σ with
    | none => none
    | some (.crash, σ') => some (.crash, σ')
    | some (.fail, σ') => some (.ok acc, σ')
    | some (.ok r, σ') =>
      if yyLen r = 0 then some (.ok acc, σ')
      else
        match yyAdd acc r with
        | none => some (.crash, σ')
        | some acc' => starGoB f m input acc' σ'
termination_by structural f => f
end

end Peggy

namespace Peggy

mutual
/-- Structural size of a matcher; the derived `Sequence`/`Choice`
objects that `Plus.__init__` and `Optional.__init__` build are strictly
smaller than the `Plus`/`Optional` node itself. -/
def symSize : Symbol → Nat
  | .Str _ => 1
  | .Dot => 1
  | .Seq l => 1 + symSizeL l
  | .Choice l => 1 + symSizeL l
  | .Star m => 1 + symSize m
  | .Plus m => 4 + 2 * symSize m
  | .Optional m => 4 + symSize m
  | .And m => 1 + symSize m
  | .Not m => 1 + symSize m
  | .Ignore m => 1 + symSize m

def symSizeL : List Symbol → Nat
  | [] => 0
  | x :: xs => symSize x + symSizeL xs
end

@[simp] theorem symSize_str (p) : symSize (.Str p) = 1 := rfl
@[simp] theorem symSize_dot : symSize .Dot = 1 := rfl
@[simp] theorem symSize_seq (l) : symSize (.Seq l) = 1 + symSizeL l := rfl
@[simp] theorem symSize_choice (l) : symSize (.Choice l) = 1 + symSizeL l :=
  rfl
@[simp] theorem symSize_star (m) : symSize (.Star m) = 1 + symSize m := rfl
@[simp] theorem symSize_plus (m) : symSize (.Plus m) = 4 + 2 * symSize m :=
  rfl
@[simp] theorem symSize_optional (m) : symSize (.Optional m) = 4 + symSize m :=
  rfl
@[simp] theorem symSize_and (m) : symSize (.And m) = 1 + symSize m := rfl
@[simp] theorem symSize_not (m) : symSize (.Not m) = 1 + symSize m := rfl
@[simp] theorem symSize_ignore (m) : symSize (.Ignore m) = 1 + symSize m :=
  rfl
@[simp] theorem symSizeL_nil : symSizeL [] = 0 := rfl
@[simp] theorem symSizeL_cons (x xs) :
    symSizeL (x :: xs) = symSize x + symSizeL xs := rfl

theorem symSizeL_mem {m : Symbol} {l : List Symbol} (h : m ∈ l) :
    symSize m ≤ symSizeL l := by
  induction l with
  | nil => exact absurd h (by simp)
  | cons x xs ih =>
    rcases List.mem_cons.mp h with h' | h'
    · subst h'; simp
    · have := ih h'; simp; omega

theorem symSize_pos (s : Symbol) : 1 ≤ symSize s := by
  cases s <;> simp <;> omega

@[simp] theorem St.store_memo (σ : St) (m pos v) :
    (σ.store m pos v).memo = ((m, pos), v) :: σ.memo := rfl
@[simp] theorem St.store_cntM (σ : St) (m pos v) :
    (σ.store m pos v).cntM = σ.cntM := rfl
@[simp] theorem St.store_cntIgn (σ : St) (m pos v) :
    (σ.store m pos v).cntIgn = σ.cntIgn := rfl
@[simp] theorem St.bumpM_memo (σ : St) (m pos) :
    (σ.bumpM m pos).memo = σ.memo := rfl
@[simp] theorem St.bumpM_cntM (σ : St) (m pos) :
    (σ.bumpM m pos).cntM = bumpKey σ.cntM (m, pos) := rfl
@[simp] theorem St.bumpM_cntIgn (σ : St) (m pos) :
    (σ.bumpM m pos).cntIgn = σ.cntIgn := rfl
@[simp] theorem St.bumpIgn_memo (σ : St) (m pos) :
    (σ.bumpIgn m pos).memo = σ.memo := rfl
@[simp] theorem St.bumpIgn_cntM (σ : St) (m pos) :
    (σ.bumpIgn m pos).cntM = σ.cntM := rfl

theorem alookup_cons_self {β : Type} (rest : List ((Symbol × Nat) × β))
    (k : Symbol × Nat) (v : β) : alookup ((k, v) :: rest) k = some v := by
  unfold alookup
  rw [if_pos rfl]

theorem alookup_cons_other {β : Type} (rest : List ((Symbol × Nat) × β))
    (k k' : Symbol × Nat) (v : β) (h : k ≠ k') :
    alookup ((k, v) :: rest) k' = alookup rest k' := by
  show (if k = k' then some v else alookup rest k') = alookup rest k'
  rw [if_neg h]

@[simp] theorem cntOf_bumpKey_self (l : List ((Symbol × Nat) × Nat))
    (k : Symbol × Nat) : cntOf (bumpKey l k) k = cntOf l k + 1 := by
  unfold cntOf bumpKey
  rw [alookup_cons_self]
  rfl

theorem cntOf_bumpKey_other (l : List ((Symbol × Nat) × Nat))
    (k k' : Symbol × Nat) (h : k ≠ k') :
    cntOf (bumpKey l k) k' = cntOf l k' := by
  unfold cntOf bumpKey
  rw [alookup_cons_other _ _ _ _ h]

/-- Entries already in the memo table are preserved (write-once). -/
def memoExt (σ σ' : St) : Prop :=
  ∀ k v, alookup σ.memo k = some v → alookup σ'.memo k = some v

/-- Coherence of the session state: every memo entry holds exactly the
outcome that `parse` (the pure semantics `pegMatch`) produces for its
key. -/
def Coh (input : List Char) (σ : St) : Prop :=
  ∀ m p v, alookup σ.memo (m, p) = some v →
    pegMatch m input p = resOfCached v

/-- Keys added to the memo table during a call all belong to matchers of
size below the bound. -/
def MemoAdd (σ σ' : St) (B : Nat) : Prop :=
  ∀ k, alookup σ.memo k = none → (alookup σ'.memo k).isSome = true →
    symSize k.1 < B

/-- How the miss counter evolves over one call: every key is either
untouched or bumped exactly once from zero, in which case it was absent
from the memo before and is present afterwards, and belongs to a matcher
of size below the bound. -/
def CntStep (σ σ' : St) (B : Nat) : Prop :=
  ∀ k, cntOf σ'.cntM k = cntOf σ.cntM k ∨
    (cntOf σ.cntM k = 0 ∧ cntOf σ'.cntM k = 1 ∧ alookup σ.memo k = none ∧
      (alookup σ'.memo k).isSome = true ∧ symSize k.1 < B)

/-- Count invariant for a session state: `parse` has run at most once per
key through the memoized path, and any key whose count is already `1`
has its outcome stored — except keys of matchers at least as large as
the bound, which may be mid-recognition. -/
def CntInv (σ : St) (B : Nat) : Prop :=
  ∀ k, cntOf σ.cntM k ≤ 1 ∧
    (cntOf σ.cntM k = 1 → (alookup σ.memo k).isSome = true ∨ B ≤ symSize k.1)

end Peggy

namespace Peggy

theorem memoExt_refl (σ : St) : memoExt σ σ := fun _ _ h => h

theorem memoExt_trans {σ σ1 σ2 : St} (h1 : memoExt σ σ1)
    (h2 : memoExt σ1 σ2) : memoExt σ σ2 :=
  fun k v h => h2 k v (h1 k v h)

theorem memoExt_none {σ σ' : St} (h : memoExt σ σ') {k : Symbol × Nat}
    (h2 : alookup σ'.memo k = none) : alookup σ.memo k = none := by
  cases hl : alookup σ.memo k with
  | none => rfl
  | some v => rw [h k v hl] at h2; exact absurd h2 (by simp)

theorem MemoAdd_refl (σ : St) (B : Nat) : MemoAdd σ σ B := by
  intro k h1 h2
  rw [h1] at h2
  exact absurd h2 (by simp)

theorem MemoAdd_trans {σ σ1 σ2 : St} {B : Nat} (h1 : MemoAdd σ σ1 B)
    (h2 : MemoAdd σ1 σ2 B) : MemoAdd σ σ2 B := by
  intro k hn hs
  cases hl : alookup σ1.memo k with
  | none => exact h2 k hl hs
  | some v => exact h1 k hn (by rw [hl]; rfl)

theorem MemoAdd_mono {σ σ' : St} {B B' : Nat} (hB : B ≤ B')
    (h : MemoAdd σ σ' B) : MemoAdd σ σ' B' :=
  fun k hn hs => lt_of_lt_of_le (h k hn hs) hB

theorem CntStep_refl (σ : St) (B : Nat) : CntStep σ σ B :=
  fun _ => .inl rfl

theorem CntStep_mono {σ σ' : St} {B B' : Nat} (hB : B ≤ B')
    (h : CntStep σ σ' B) : CntStep σ σ' B' := by
  intro k
  rcases h k with h' | ⟨h1, h2, h3, h4, h5⟩
  · exact .inl h'
  · exact .inr ⟨h1, h2, h3, h4, by omega⟩

theorem CntStep_trans {σ σ1 σ2 : St} {B : Nat} (e1 : memoExt σ σ1)
    (e2 : memoExt σ1 σ2) (h1 : CntStep σ σ1 B) (h2 : CntStep σ1 σ2 B) :
    CntStep σ σ2 B := by
  intro k
  rcases h1 k with hu1 | ⟨c0, c1, mn, ms, hs⟩
  · rcases h2 k with hu2 | ⟨c0', c1', mn', ms', hs'⟩
    · exact .inl (by rw [hu2, hu1])
    · exact .inr ⟨by rw [← hu1]; exact c0', c1', memoExt_none e1 mn', ms', hs'⟩
  · rcases h2 k with hu2 | ⟨c0', c1', mn', ms', hs'⟩
    · refine .inr ⟨c0, by rw [hu2]; exact c1, mn, ?_, hs⟩
      rw [Option.isSome_iff_exists] at ms
      obtain ⟨v, hv⟩ := ms
      rw [e2 k v hv]
      rfl
    · rw [Option.isSome_iff_exists] at ms
      obtain ⟨v, hv⟩ := ms
      rw [hv] at mn'
      exact absurd mn' (by simp)

theorem CntInv_mono {σ : St} {B B' : Nat} (hB : B' ≤ B) (h : CntInv σ B) :
    CntInv σ B' := by
  intro k
  refine ⟨(h k).1, fun h1 => ?_⟩
  rcases (h k).2 h1 with h' | h'
  · exact .inl h'
  · exact .inr (by omega)

theorem CntInv_preserve {σ σ' : St} {B B' : Nat} (h : CntInv σ B)
    (he : memoExt σ σ') (hs : CntStep σ σ' B') : CntInv σ' B := by
  intro k
  rcases hs k with hu | ⟨c0, c1, _, ms, _⟩
  · refine ⟨by rw [hu]; exact (h k).1, fun h1 => ?_⟩
    rw [hu] at h1
    rcases (h k).2 h1 with h' | h'
    · rw [Option.isSome_iff_exists] at h'
      obtain ⟨v, hv⟩ := h'
      exact .inl (by rw [he k v hv]; rfl)
    · exact .inr h'
  · exact ⟨by omega, fun _ => .inl ms⟩

theorem Coh_store {input : List Char} {σ : St} {n : Symbol} {pos : Nat}
    {v : Option YY} (h : Coh input σ)
    (hv : pegMatch n input pos = resOfCached v) :
    Coh input (σ.store n pos v) := by
  intro m p w hw
  by_cases hk : ((n, pos) : Symbol × Nat) = (m, p)
  · obtain ⟨hn, hp⟩ := Prod.mk.injEq .. ▸ hk
    rw [St.store_memo, hk, alookup_cons_self] at hw
    obtain rfl := Option.some.inj hw
    rw [← hn, ← hp]
    exact hv
  · rw [St.store_memo, alookup_cons_other _ _ _ _ hk] at hw
    exact h m p w hw

theorem matchN_zero (m input pos σ) : matchN 0 m input pos σ = none := rfl

theorem matchN_succ (f m input pos σ) :
    matchN (f + 1) m input pos σ =
      (match alookup σ.memo (m, pos) with
       | some v => some (resOfCached v, σ)
       | none =>
         match parseB f m input pos (σ.bumpM m pos) with
         | none => none
         | some (.crash, σ') => some (.crash, σ')
         | some (.fail, σ') => some (.fail, σ'.store m pos none)
         | some (.ok r, σ') => some (.ok r, σ'.store m pos (some r))) := rfl

theorem parseB_str (f p input pos σ) :
    parseB (f + 1) (.Str p) input pos σ = some (strVal p input pos, σ) := rfl

theorem parseB_dot (f input pos σ) :
    parseB (f + 1) .Dot input pos σ = some (dotVal input pos, σ) := rfl

theorem parseB_seq (f l input pos σ) :
    parseB (f + 1) (.Seq l) input pos σ =
      seqGoB f (.Seq l) l input pos (.mk (.Seq l) pos [] [] false) σ := rfl

theorem parseB_choice_nil (f input pos σ) :
    parseB (f + 1) (.Choice []) input pos σ = some (.crash, σ) := rfl

theorem parseB_choice_cons (f a as input pos σ) :
    parseB (f + 1) (.Choice (a :: as)) input pos σ =
      choiceGoB f (.Choice (a :: as)) (a :: as) input pos σ := rfl

theorem parseB_star (f m input pos σ) :
    parseB (f + 1) (.Star m) input pos σ =
      starGoB f m input (.mk (.Star m) pos [] [] false) σ := rfl

theorem parseB_plus (f m input pos σ) :
    parseB (f + 1) (.Plus m) input pos σ =
      matchN f (.Seq [m, .Star m]) input pos σ := rfl

theorem parseB_optional (f m input pos σ) :
    parseB (f + 1) (.Optional m) input pos σ =
      matchN f (.Choice [m, .Str []]) input pos σ := rfl

theorem parseB_and (f m input pos σ) :
    parseB (f + 1) (.And m) input pos σ =
      (match matchN f m input pos σ with
       | none => none
       | some (.crash, σ') => some (.crash, σ')
       | some (.fail, σ') => some (.fail, σ')
       | some (.ok _, σ') => some (.ok (.mk (.And m) pos [] [] false), σ')) :=
  rfl

theorem parseB_not (f m input pos σ) :
    parseB (f + 1) (.Not m) input pos σ =
      (match matchN f m input pos σ with
       | none => none
       | some (.crash, σ') => some (.crash, σ')
       | some (.fail, σ') => some (.ok (.mk (.Not m) pos [] [] false), σ')
       | some (.ok _, σ') => some (.fail, σ')) := rfl

theorem parseB_ignore (f m input pos σ) :
    parseB (f + 1) (.Ignore m) input pos σ =
      (match parseB f m input pos (σ.bumpIgn m pos) with
       | none => none
       | some (.crash, σ') => some (.crash, σ')
       | some (.fail, σ') => some (.fail, σ')
       | some (.ok r, σ') =>
         some (.ok (.mk (.Ignore m) pos (yyStr r) [] true), σ')) := rfl

theorem seqGoB_nil (f owner input pos acc σ) :
    seqGoB (f + 1) owner [] input pos acc σ = some (.ok acc, σ) := rfl

theorem seqGoB_cons (f owner m ms input pos acc σ) :
    seqGoB (f + 1) owner (m :: ms) input pos acc σ =
      (match matchN f m input (pos + yyLen acc) σ with
       | none => none
       | some (.crash, σ') => some (.crash, σ')
       | some (.fail, σ') => some (.fail, σ')
       | some (.ok r, σ') =>
         match yyAdd acc r with
         | none => some (.crash, σ')
         | some acc' => seqGoB f owner ms input pos acc' σ') := rfl

theorem choiceGoB_nil (f owner input pos σ) :
    choiceGoB (f + 1) owner [] input pos σ = some (.fail, σ) := rfl

theorem choiceGoB_cons (f owner m ms input pos σ) :
    choiceGoB (f + 1) owner (m :: ms) input pos σ =
      (match matchN f m input pos σ with
       | none => none
       | some (.crash, σ') => some (.crash, σ')
       | some (.ok r, σ') =>
         (match yyAdd (.mk owner pos [] [] false) r with
          | none => some (.crash, σ')
          | some w => some (.ok w, σ'))
       | some (.fail, σ') => choiceGoB f owner ms input pos σ') := rfl

theorem starGoB_succ (f m input acc σ) :
    starGoB (f + 1) m input acc σ =
      (match matchN f m input (acc.pos + yyLen acc) σ with
       | none => none
       | some (.crash, σ') => some (.crash, σ')
       | some (.fail, σ') => some (.ok acc, σ')
       | some (.ok r, σ') =>
         if yyLen r = 0 then some (.ok acc, σ')
         else
           match yyAdd acc r with
           | none => some (.crash, σ')
           | some acc' => starGoB f m input acc' σ') := rfl

@[simp] theorem cacheOf_resOfCached (v : Option YY) :
    cacheOf (resOfCached v) = v := by
  cases v <;> rfl

end Peggy

namespace Peggy

theorem memoExt_store_of_absent {σ : St} {n : Symbol} {pos : Nat}
    {v : Option YY} (h : alookup σ.memo (n, pos) = none) :
    memoExt σ (σ.store n pos v) := by
  intro k w hw
  have hk : ((n, pos) : Symbol × Nat) ≠ k := by
    intro he
    rw [← he] at hw
    rw [h] at hw
    exact absurd hw (by simp)
  rw [St.store_memo, alookup_cons_other _ _ _ _ hk]
  exact hw

/-- Bookkeeping for the miss path of `Symbol.match`: bump the counter,
run `parse`, store the outcome. -/
theorem matchN_miss_conclusions {input : List Char} {n : Symbol} {pos : Nat}
    {σ σ'' : St} (v : Option YY)
    (hl : alookup σ.memo (n, pos) = none)
    (hc0 : cntOf σ.cntM (n, pos) = 0)
    (he1 : memoExt (σ.bumpM n pos) σ'')
    (ha1 : MemoAdd (σ.bumpM n pos) σ'' (symSize n))
    (hs1 : CntStep (σ.bumpM n pos) σ'' (symSize n))
    (hch1 : Coh input σ'')
    (hv : pegMatch n input pos = resOfCached v) :
    memoExt σ (σ''.store n pos v) ∧
      MemoAdd σ (σ''.store n pos v) (symSize n + 1) ∧
      CntStep σ (σ''.store n pos v) (symSize n + 1) ∧
      Coh input (σ''.store n pos v) ∧
      alookup (σ''.store n pos v).memo (n, pos) = some v := by
  have hmemo1 : (σ.bumpM n pos).memo = σ.memo := rfl
  have habs'' : alookup σ''.memo (n, pos) = none := by
    cases hp : alookup σ''.memo (n, pos) with
    | none => rfl
    | some w =>
      have := ha1 (n, pos) (by rw [hmemo1]; exact hl) (by rw [hp]; rfl)
      simp at this
  have hcnt1 : cntOf (σ.bumpM n pos).cntM (n, pos) = 1 := by
    rw [St.bumpM_cntM, cntOf_bumpKey_self, hc0]
  have hcnt'' : cntOf σ''.cntM (n, pos) = 1 := by
    rcases hs1 (n, pos) with hu | ⟨c0, _, _, _, _⟩
    · rw [hu, hcnt1]
    · rw [hcnt1] at c0; exact absurd c0 (by simp)
  refine ⟨?_, ?_, ?_, ?_, ?_⟩
  · -- memoExt
    refine memoExt_trans (show memoExt σ σ'' from ?_)
      (memoExt_store_of_absent habs'')
    intro k w hw
    exact he1 k w (by rw [hmemo1]; exact hw)
  · -- MemoAdd
    intro k hn hs
    by_cases hk : k = ((n, pos) : Symbol × Nat)
    · subst hk; simp
    · have hs' : (alookup σ''.memo k).isSome = true := by
        rw [St.store_memo,
          alookup_cons_other _ _ _ _ (fun he => hk he.symm)] at hs
        exact hs
      have := ha1 k (by rw [hmemo1]; exact hn) hs'
      omega
  · -- CntStep
    intro k
    by_cases hk : k = ((n, pos) : Symbol × Nat)
    · subst hk
      refine .inr ⟨hc0, ?_, hl, ?_, by simp⟩
      · rw [St.store_cntM, hcnt'']
      · rw [St.store_memo, alookup_cons_self]
        rfl
    · have hcnteq : cntOf (σ.bumpM n pos).cntM k = cntOf σ.cntM k := by
        rw [St.bumpM_cntM, cntOf_bumpKey_other _ _ _ (fun he => hk he.symm)]
      rcases hs1 k with hu | ⟨c0, c1, mn, ms, hsz⟩
      · exact .inl (by rw [St.store_cntM, hu, hcnteq])
      · refine .inr ⟨by rw [← hcnteq]; exact c0, by rw [St.store_cntM]; exact c1,
          by rw [← hmemo1]; exact mn, ?_, by omega⟩
        rw [Option.isSome_iff_exists] at ms
        obtain ⟨w, hw⟩ := ms
        rw [St.store_memo,
          alookup_cons_other _ _ _ _ (fun he => hk he.symm), hw]
        rfl
  · exact Coh_store hch1 hv
  · rw [St.store_memo, alookup_cons_self]

end Peggy

namespace Peggy

theorem pairSome_inj {α β : Type} {a c : α} {b d : β}
    (h : (some (a, b) : Option (α × β)) = some (c, d)) : a = c ∧ b = d := by
  have h2 := Option.some.inj h
  exact ⟨congrArg Prod.fst h2, congrArg Prod.snd h2⟩

/-- Master invariant of the memoized engine: a `match` call returns
exactly what the pure recognition semantics returns, preserves and
coherently extends the memo table, and bumps each miss counter at most
once, leaving every bumped key stored. -/
theorem masterB : ∀ f : Nat,
    (∀ (n : Symbol) (input : List Char) (pos : Nat) (σ : St) (r : Res)
      (σ' : St), wf n = true → pos ≤ input.length → Coh input σ →
      CntInv σ (symSize n + 1) →
      matchN f n input pos σ = some (r, σ') →
      r = pegMatch n input pos ∧ memoExt σ σ' ∧
        MemoAdd σ σ' (symSize n + 1) ∧ CntStep σ σ' (symSize n + 1) ∧
        Coh input σ' ∧ alookup σ'.memo (n, pos) = some (cacheOf r))
    ∧ (∀ (n : Symbol) (input : List Char) (pos : Nat) (σ : St) (r : Res)
      (σ' : St), wf n = true → pos ≤ input.length → Coh input σ →
      CntInv σ (symSize n) →
      parseB f n input pos σ = some (r, σ') →
      r = pegMatch n input pos ∧ memoExt σ σ' ∧ MemoAdd σ σ' (symSize n) ∧
        CntStep σ σ' (symSize n) ∧ Coh input σ')
    ∧ (∀ (owner : Symbol) (l : List Symbol) (input : List Char) (pos : Nat)
      (acc : YY) (σ : St) (r : Res) (σ' : St) (B : Nat), wfL l = true →
      pos ≤ input.length → acc.pos = pos →
      yyLen acc ≤ input.length - pos → (∀ m ∈ l, symSize m < B) →
      Coh input σ → CntInv σ B →
      seqGoB f owner l input pos acc σ = some (r, σ') →
      r = seqRun owner l input pos acc ∧ memoExt σ σ' ∧ MemoAdd σ σ' B ∧
        CntStep σ σ' B ∧ Coh input σ')
    ∧ (∀ (owner : Symbol) (l : List Symbol) (input : List Char) (pos : Nat)
      (σ : St) (r : Res) (σ' : St) (B : Nat), wfL l = true →
      pos ≤ input.length → (∀ m ∈ l, symSize m < B) →
      Coh input σ → CntInv σ B →
      choiceGoB f owner l input pos σ = some (r, σ') →
      r = chRun owner l input pos ∧ memoExt σ σ' ∧ MemoAdd σ σ' B ∧
        CntStep σ σ' B ∧ Coh input σ')
    ∧ (∀ (m : Symbol) (input : List Char) (acc : YY) (σ : St) (r : Res)
      (σ' : St) (B : Nat), wf m = true → acc.pos ≤ input.length →
      yyLen acc ≤ input.length - acc.pos → symSize m < B →
      Coh input σ → CntInv σ B →
      starGoB f m input acc σ = some (r, σ') →
      r = starRun m input acc ∧ memoExt σ σ' ∧ MemoAdd σ σ' B ∧
        CntStep σ σ' B ∧ Coh input σ') := by
  intro f
  induction f with
  | zero =>
    refine ⟨?_, ?_, ?_, ?_, ?_⟩ <;> intros <;>
      simp_all [show ∀ m i p σ, matchN 0 m i p σ = none from fun _ _ _ _ => rfl,
        show ∀ m i p σ, parseB 0 m i p σ = none from fun _ _ _ _ => rfl,
        show ∀ o l i p a σ, seqGoB 0 o l i p a σ = none from
          fun _ _ _ _ _ _ => rfl,
        show ∀ o l i p σ, choiceGoB 0 o l i p σ = none from
          fun _ _ _ _ _ => rfl,
        show ∀ m i a σ, starGoB 0 m i a σ = none from fun _ _ _ _ => rfl]
  | succ f ih =>
    obtain ⟨ihM, ihP, ihSeq, ihCh, ihStar⟩ := ih
    refine ⟨?_, ?_, ?_, ?_, ?_⟩
    -- matchN
    · intro n input pos σ r σ' hwf hpos hcoh hinv h
      rw [matchN_succ] at h
      cases hl : alookup σ.memo (n, pos) with
      | some v =>
        rw [hl] at h
        obtain ⟨rfl, rfl⟩ := pairSome_inj h
        refine ⟨(hcoh n pos v hl).symm, memoExt_refl σ, MemoAdd_refl σ _,
          CntStep_refl σ _, hcoh, ?_⟩
        simp [hl]
      | none =>
        rw [hl] at h
        have hc0 : cntOf σ.cntM (n, pos) = 0 := by
          rcases Nat.lt_or_ge (cntOf σ.cntM (n, pos)) 1 with h1 | h1
          · omega
          · have h2 : cntOf σ.cntM (n, pos) = 1 :=
              le_antisymm ((hinv (n, pos)).1) h1
            rcases (hinv (n, pos)).2 h2 with h3 | h3
            · rw [hl] at h3; exact absurd h3 (by simp)
            · have h4 : symSize n + 1 ≤ symSize n := h3
              omega
        have hcoh1 : Coh input (σ.bumpM n pos) := hcoh
        have hinv1 : CntInv (σ.bumpM n pos) (symSize n) := by
          intro k
          by_cases hk : k = ((n, pos) : Symbol × Nat)
          · subst hk
            rw [St.bumpM_cntM, cntOf_bumpKey_self, hc0]
            exact ⟨le_refl _, fun _ => .inr (by simp)⟩
          · rw [St.bumpM_cntM,
              cntOf_bumpKey_other _ _ _ (fun he => hk he.symm)]
            refine ⟨(hinv k).1, fun h1 => ?_⟩
            rcases (hinv k).2 h1 with h2 | h2
            · exact .inl h2
            · exact .inr (by omega)
        cases hp : parseB f n input pos (σ.bumpM n pos) with
        | none => rw [hp] at h; exact absurd h (by simp)
        | some pr =>
          obtain ⟨r'', σ''⟩ := pr
          rw [hp] at h
          obtain ⟨hr1, he1, ha1, hs1, hch1⟩ :=
            ihP n input pos (σ.bumpM n pos) r'' σ'' hwf hpos hcoh1 hinv1 hp
          have hnc : r'' ≠ .crash := by
            rw [hr1]
            exact pegMatch_no_crash hwf hpos
          cases r'' with
          | crash => exact absurd rfl hnc
          | fail =>
            obtain ⟨rfl, rfl⟩ := pairSome_inj h
            obtain ⟨e2, a2, s2, c2, st2⟩ := matchN_miss_conclusions none hl
              hc0 he1 ha1 hs1 hch1 (by rw [← hr1]; rfl)
            exact ⟨hr1, e2, a2, s2, c2, st2⟩
          | ok y =>
            obtain ⟨rfl, rfl⟩ := pairSome_inj h
            obtain ⟨e2, a2, s2, c2, st2⟩ := matchN_miss_conclusions (some y)
              hl hc0 he1 ha1 hs1 hch1 (by rw [← hr1]; rfl)
            exact ⟨hr1, e2, a2, s2, c2, st2⟩
    -- parseB
    · intro n input pos σ r σ' hwf hpos hcoh hinv h
      cases n with
      | Str p =>
        rw [parseB_str] at h
        obtain ⟨rfl, rfl⟩ := pairSome_inj h
        exact ⟨strVal_pegMatch p input pos, memoExt_refl σ, MemoAdd_refl σ _,
          CntStep_refl σ _, hcoh⟩
      | Dot =>
        rw [parseB_dot] at h
        obtain ⟨rfl, rfl⟩ := pairSome_inj h
        exact ⟨dotVal_pegMatch input pos, memoExt_refl σ, MemoAdd_refl σ _,
          CntStep_refl σ _, hcoh⟩
      | Seq l =>
        rw [parseB_seq] at h
        have hres := ihSeq (.Seq l) l input pos (.mk (.Seq l) pos [] [] false)
          σ r σ' (symSize (.Seq l)) (by simpa using hwf) hpos (by simp)
          (by simp)
          (fun m hm => by
            have := symSizeL_mem hm
            simp only [symSize_seq] at *
            omega)
          hcoh hinv h
        obtain ⟨hr1, he1, ha1, hs1, hch1⟩ := hres
        exact ⟨by rw [hr1, pegMatch_seqRun], he1, ha1, hs1, hch1⟩
      | Choice l =>
        cases l with
        | nil => simp at hwf
        | cons a as =>
          rw [parseB_choice_cons] at h
          have hres := ihCh (.Choice (a :: as)) (a :: as) input pos σ r σ'
            (symSize (.Choice (a :: as))) (by simpa using hwf) hpos
            (fun m hm => by
              have := symSizeL_mem hm
              simp only [symSize_choice] at *
              omega)
            hcoh hinv h
          obtain ⟨hr1, he1, ha1, hs1, hch1⟩ := hres
          exact ⟨by rw [hr1, pegMatch_chRun], he1, ha1, hs1, hch1⟩
      | Star m =>
        rw [parseB_star] at h
        have hres := ihStar m input (.mk (.Star m) pos [] [] false) σ r σ'
          (symSize (.Star m)) (by simpa using hwf) (by simpa using hpos)
          (by simp) (by simp) hcoh hinv h
        obtain ⟨hr1, he1, ha1, hs1, hch1⟩ := hres
        exact ⟨by rw [hr1, pegMatch_starRun], he1, ha1, hs1, hch1⟩
      | Plus m =>
        rw [parseB_plus] at h
        have hwfm : wf m = true := by simpa using hwf
        have hres := ihM (.Seq [m, .Star m]) input pos σ r σ'
          (by simp [hwfm]) hpos hcoh
          (CntInv_mono (by simp; omega) hinv) h
        obtain ⟨hr1, he1, ha1, hs1, hch1, _⟩ := hres
        exact ⟨by rw [hr1, pegMatch_plus], he1,
          MemoAdd_mono (by simp; omega) ha1,
          CntStep_mono (by simp; omega) hs1, hch1⟩
      | Optional m =>
        rw [parseB_optional] at h
        have hwfm : wf m = true := by simpa using hwf
        have hres := ihM (.Choice [m, .Str []]) input pos σ r σ'
          (by simp [hwfm]) hpos hcoh
          (CntInv_mono (by simp; omega) hinv) h
        obtain ⟨hr1, he1, ha1, hs1, hch1, _⟩ := hres
        exact ⟨by rw [hr1, pegMatch_optional], he1,
          MemoAdd_mono (by simp; omega) ha1,
          CntStep_mono (by simp; omega) hs1, hch1⟩
      | And m =>
        rw [parseB_and] at h
        have hwfm : wf m = true := by simpa using hwf
        cases hm : matchN f m input pos σ with
        | none => rw [hm] at h; exact absurd h (by simp)
        | some pr =>
          obtain ⟨rm, σ1⟩ := pr
          rw [hm] at h
          obtain ⟨hr1, he1, ha1, hs1, hch1, _⟩ := ihM m input pos σ rm σ1
            hwfm hpos hcoh (CntInv_mono (by rw [symSize_and]; omega) hinv) hm
          have hb1 := MemoAdd_mono (show symSize m + 1 ≤ symSize (.And m)
            by rw [symSize_and]; omega) ha1
          have hb2 := CntStep_mono (show symSize m + 1 ≤ symSize (.And m)
            by rw [symSize_and]; omega) hs1
          cases rm with
          | crash => exact absurd hr1.symm (pegMatch_no_crash hwfm hpos)
          | fail =>
            obtain ⟨rfl, rfl⟩ := pairSome_inj h
            refine ⟨?_, he1, hb1, hb2, hch1⟩
            rw [pegMatch_and, ← hr1]
          | ok y =>
            obtain ⟨rfl, rfl⟩ := pairSome_inj h
            refine ⟨?_, he1, hb1, hb2, hch1⟩
            rw [pegMatch_and, ← hr1]
      | Not m =>
        rw [parseB_not] at h
        have hwfm : wf m = true := by simpa using hwf
        cases hm : matchN f m input pos σ with
        | none => rw [hm] at h; exact absurd h (by simp)
        | some pr =>
          obtain ⟨rm, σ1⟩ := pr
          rw [hm] at h
          obtain ⟨hr1, he1, ha1, hs1, hch1, _⟩ := ihM m input pos σ rm σ1
            hwfm hpos hcoh (CntInv_mono (by rw [symSize_not]; omega) hinv) hm
          have hb1 := MemoAdd_mono (show symSize m + 1 ≤ symSize (.Not m)
            by rw [symSize_not]; omega) ha1
          have hb2 := CntStep_mono (show symSize m + 1 ≤ symSize (.Not m)
            by rw [symSize_not]; omega) hs1
          cases rm with
          | crash => exact absurd hr1.symm (pegMatch_no_crash hwfm hpos)
          | fail =>
            obtain ⟨rfl, rfl⟩ := pairSome_inj h
            refine ⟨?_, he1, hb1, hb2, hch1⟩
            rw [pegMatch_not, ← hr1]
          | ok y =>
            obtain ⟨rfl, rfl⟩ := pairSome_inj h
            refine ⟨?_, he1, hb1, hb2, hch1⟩
            rw [pegMatch_not, ← hr1]
      | Ignore m =>
        rw [parseB_ignore] at h
        have hwfm : wf m = true := by simpa using hwf
        cases hp : parseB f m input pos (σ.bumpIgn m pos) with
        | none => rw [hp] at h; exact absurd h (by simp)
        | some pr =>
          obtain ⟨rm, σ1⟩ := pr
          rw [hp] at h
          obtain ⟨hr1, he1, ha1, hs1, hch1⟩ := ihP m input pos
            (σ.bumpIgn m pos) rm σ1 hwfm hpos hcoh
            (CntInv_mono (by rw [symSize_ignore]; omega) hinv) hp
          have hb1 := MemoAdd_mono (show symSize m ≤ symSize (.Ignore m)
            by rw [symSize_ignore]; omega) ha1
          have hb2 := CntStep_mono (show symSize m ≤ symSize (.Ignore m)
            by rw [symSize_ignore]; omega) hs1
          cases rm with
          | crash => exact absurd hr1.symm (pegMatch_no_crash hwfm hpos)
          | fail =>
            obtain ⟨rfl, rfl⟩ := pairSome_inj h
            refine ⟨?_, he1, hb1, hb2, hch1⟩
            rw [pegMatch_ignore, ← hr1]
          | ok y =>
            obtain ⟨rfl, rfl⟩ := pairSome_inj h
            refine ⟨?_, he1, hb1, hb2, hch1⟩
            rw [pegMatch_ignore, ← hr1]
    -- seqGoB
    · intro owner l input pos acc σ r σ' B hwfl hpos haccpos hacclen hB hcoh
        hinv h
      cases l with
      | nil =>
        rw [seqGoB_nil] at h
        obtain ⟨rfl, rfl⟩ := pairSome_inj h
        exact ⟨(seqRun_nil owner input pos acc).symm, memoExt_refl σ,
          MemoAdd_refl σ _, CntStep_refl σ _, hcoh⟩
      | cons m ms =>
        rw [seqGoB_cons] at h
        simp only [wfL_cons, Bool.and_eq_true] at hwfl
        have hq : pos + yyLen acc ≤ input.length := by omega
        have hmB : symSize m < B := hB m (by simp)
        cases hm : matchN f m input (pos + yyLen acc) σ with
        | none => rw [hm] at h; exact absurd h (by simp)
        | some pr =>
          obtain ⟨rm, σ1⟩ := pr
          rw [hm] at h
          obtain ⟨hr1, he1, ha1, hs1, hch1, _⟩ := ihM m input
            (pos + yyLen acc) σ rm σ1 hwfl.1 hq hcoh
            (CntInv_mono (by omega) hinv) hm
          have hb1 := MemoAdd_mono (show symSize m + 1 ≤ B by omega) ha1
          have hb2 := CntStep_mono (show symSize m + 1 ≤ B by omega) hs1
          cases rm with
          | crash => exact absurd hr1.symm (pegMatch_no_crash hwfl.1 hq)
          | fail =>
            obtain ⟨rfl, rfl⟩ := pairSome_inj h
            refine ⟨?_, he1, hb1, hb2, hch1⟩
            rw [seqRun_cons, ← hr1]
          | ok rc =>
            simp only at h
            obtain ⟨hcpos, hcb⟩ := pegMatch_ok hr1.symm
            have hadd : yyAdd acc rc =
                some (.mk acc.symbol acc.pos acc.yytext (acc.child ++ [rc])
                  false) := by
              apply yyAdd_of_pos
              rw [hcpos, haccpos]
            rw [hadd] at h
            have hlen' := yyAdd_len hadd
            obtain ⟨hr2, he2, ha2, hs2, hch2⟩ := ihSeq owner ms input pos
              (.mk acc.symbol acc.pos acc.yytext (acc.child ++ [rc]) false)
              σ1 r σ' B hwfl.2 hpos (by simp [haccpos]) (by omega)
              (fun x hx => hB x (by simp [hx])) hch1
              (CntInv_preserve hinv he1 hs1) h
            refine ⟨?_, memoExt_trans he1 he2, MemoAdd_trans hb1 ha2,
              CntStep_trans he1 he2 hb2 hs2, hch2⟩
            rw [seqRun_cons, ← hr1]
            simp only
            rw [hadd]
            exact hr2
    -- choiceGoB
    · intro owner l input pos σ r σ' B hwfl hpos hB hcoh hinv h
      cases l with
      | nil =>
        rw [choiceGoB_nil] at h
        obtain ⟨rfl, rfl⟩ := pairSome_inj h
        exact ⟨(chRun_nil owner input pos).symm, memoExt_refl σ,
          MemoAdd_refl σ _, CntStep_refl σ _, hcoh⟩
      | cons m ms =>
        rw [choiceGoB_cons] at h
        simp only [wfL_cons, Bool.and_eq_true] at hwfl
        have hmB : symSize m < B := hB m (by simp)
        cases hm : matchN f m input pos σ with
        | none => rw [hm] at h; exact absurd h (by simp)
        | some pr =>
          obtain ⟨rm, σ1⟩ := pr
          rw [hm] at h
          obtain ⟨hr1, he1, ha1, hs1, hch1, _⟩ := ihM m input pos σ rm σ1
            hwfl.1 hpos hcoh (CntInv_mono (by omega) hinv) hm
          have hb1 := MemoAdd_mono (show symSize m + 1 ≤ B by omega) ha1
          have hb2 := CntStep_mono (show symSize m + 1 ≤ B by omega) hs1
          cases rm with
          | crash => exact absurd hr1.symm (pegMatch_no_crash hwfl.1 hpos)
          | fail =>
            obtain ⟨hr2, he2, ha2, hs2, hch2⟩ := ihCh owner ms input pos σ1
              r σ' B hwfl.2 hpos (fun x hx => hB x (by simp [hx])) hch1
              (CntInv_preserve hinv he1 hs1) h
            refine ⟨?_, memoExt_trans he1 he2, MemoAdd_trans hb1 ha2,
              CntStep_trans he1 he2 hb2 hs2, hch2⟩
            rw [chRun_cons, ← hr1]
            exact hr2
          | ok rc =>
            simp only at h
            obtain ⟨hcpos, hcb⟩ := pegMatch_ok hr1.symm
            have hadd : yyAdd (.mk owner pos [] [] false) rc =
                some (.mk owner pos [] ([] ++ [rc]) false) := by
              apply yyAdd_of_pos
              rw [hcpos]
              simp
            rw [hadd] at h
            obtain ⟨rfl, rfl⟩ := pairSome_inj h
            refine ⟨?_, he1, hb1, hb2, hch1⟩
            rw [chRun_cons, ← hr1]
            simp only
            rw [hadd]
    -- starGoB
    · intro m input acc σ r σ' B hwfm hapos halen hmB hcoh hinv h
      rw [starGoB_succ] at h
      have hq : acc.pos + yyLen acc ≤ input.length := by omega
      cases hm : matchN f m input (acc.pos + yyLen acc) σ with
      | none => rw [hm] at h; exact absurd h (by simp)
      | some pr =>
        obtain ⟨rm, σ1⟩ := pr
        rw [hm] at h
        obtain ⟨hr1, he1, ha1, hs1, hch1, _⟩ := ihM m input
          (acc.pos + yyLen acc) σ rm σ1 hwfm hq hcoh
          (CntInv_mono (by omega) hinv) hm
        have hb1 := MemoAdd_mono (show symSize m + 1 ≤ B by omega) ha1
        have hb2 := CntStep_mono (show symSize m + 1 ≤ B by omega) hs1
        cases rm with
        | crash => exact absurd hr1.symm (pegMatch_no_crash hwfm hq)
        | fail =>
          obtain ⟨rfl, rfl⟩ := pairSome_inj h
          refine ⟨?_, he1, hb1, hb2, hch1⟩
          rw [starRun_unfold, ← hr1]
        | ok rc =>
          simp only at h
          obtain ⟨hcpos, hcb⟩ := pegMatch_ok hr1.symm
          by_cases hz : yyLen rc = 0
          · rw [if_pos hz] at h
            obtain ⟨rfl, rfl⟩ := pairSome_inj h
            refine ⟨?_, he1, hb1, hb2, hch1⟩
            rw [starRun_unfold, ← hr1]
            simp only
            rw [if_pos hz]
          · rw [if_neg hz] at h
            have hadd : yyAdd acc rc =
                some (.mk acc.symbol acc.pos acc.yytext (acc.child ++ [rc])
                  false) := by
              apply yyAdd_of_pos
              rw [hcpos]
            rw [hadd] at h
            have hlen' := yyAdd_len hadd
            obtain ⟨hr2, he2, ha2, hs2, hch2⟩ := ihStar m input
              (.mk acc.symbol acc.pos acc.yytext (acc.child ++ [rc]) false)
              σ1 r σ' B hwfm (by simp; omega) (by simp [hlen']; omega) hmB
              hch1 (CntInv_preserve hinv he1 hs1) h
            refine ⟨?_, memoExt_trans he1 he2, MemoAdd_trans hb1 ha2,
              CntStep_trans he1 he2 hb2 hs2, hch2⟩
            rw [starRun_unfold, ← hr1]
            simp only
            rw [if_neg hz, hadd]
            exact hr2

end Peggy

namespace Peggy

/-- Semantic actions: per-matcher optional functions from a result node
to an arbitrary value (`Symbol.action`, default `None`).  The environment
plays the role of the mutable `action` attribute across the matcher
objects. -/
def ActionEnv (V : Type) : Type := Symbol → Option (YY → V)

/-- The environment with no actions attached (class default
`action = None`). -/
def noActions (V : Type) : ActionEnv V := fun _ => none

/-- Attaching (or replacing) the action of one matcher:
`attachAction(matcher, actionFn)`. -/
def setAction {V : Type} (env : ActionEnv V) (m : Symbol) (a : YY → V) :
    ActionEnv V :=
  fun m' => if m' = m then some a else env m'

/-- Action evaluation, `YYtext.__call__`: the owning matcher's action is
looked up at evaluation time; with no action attached the value is the
rendered text `str(self)`, otherwise the action applied to the full
node. -/
def evalNode {V : Type} (env : ActionEnv V) (y : YY) : List Char ⊕ V :=
  match env y.symbol with
  | none => .inl (yyStr y)
  | some a => .inr (a y)

end Peggy

namespace Peggy

@[simp] theorem alookup_nil {β : Type} (k : Symbol × Nat) :
    alookup ([] : List ((Symbol × Nat) × β)) k = none := rfl

theorem Coh_empty (input : List Char) : Coh input St.empty := by
  intro m p v h
  exact absurd h (by simp [St.empty])

theorem CntInv_empty (B : Nat) : CntInv St.empty B := by
  intro k
  refine ⟨?_, ?_⟩ <;> simp [St.empty, cntOf]

theorem starGo_not_fail : ∀ (f : Nat) (m : Symbol) (input : List Char)
    (acc : YY), starGo f m input acc ≠ some .fail := by
  intro f
  induction f with
  | zero => intro m input acc; rw [starGo_zero]; simp
  | succ f ih =>
    intro m input acc
    rw [starGo_succ]
    cases parseN f m input (acc.pos + yyLen acc) with
    | none => simp
    | some rm =>
      cases rm with
      | crash => simp
      | fail => simp
      | ok rc =>
        simp only
        by_cases hz : yyLen rc = 0
        · rw [if_pos hz]; simp
        · rw [if_neg hz]
          cases yyAdd acc rc with
          | none => simp
          | some acc' => exact ih m input acc'

theorem starRun_not_fail (m : Symbol) (input : List Char) (acc : YY) :
    starRun m input acc ≠ .fail := by
  intro h
  have h2 := starRun_spec m input acc
  rw [h] at h2
  exact starGo_not_fail _ m input acc h2

/-- A `Star` never returns the no-match sentinel (`Star.parse`
unconditionally returns the accumulated node). -/
theorem pegMatch_star_not_fail (m : Symbol) (input : List Char) (pos : Nat) :
    pegMatch (.Star m) input pos ≠ .fail := by
  rw [pegMatch_starRun]
  exact starRun_not_fail _ _ _

/-- Claim C6: `Literal-String(p).match(s, i)` succeeds exactly when the
input slice `s[i:i+len(p)]` equals `p`; on success the result consumes
exactly `len(p)` characters (its node carries the pattern itself as
recognized text at position `i`), and on any shorter remaining input or
mismatch the outcome is the ordinary no-match sentinel. -/
theorem claim_C6_literal_string (p input : List Char) (pos : Nat) :
    pegMatch (.Str p) input pos =
      (if (input.drop pos).take p.length = p
       then .ok (.mk (.Str p) pos p [] false) else .fail)
    ∧ (∀ r, pegMatch (.Str p) input pos = .ok r →
      yyLen r = p.length ∧ yyStr r = p ∧ r.pos = pos) := by
  refine ⟨pegMatch_str p input pos, ?_⟩
  intro r h
  rw [pegMatch_str] at h
  by_cases hc : (input.drop pos).take p.length = p
  · rw [if_pos hc] at h
    obtain rfl := (Res.ok.inj h).symm
    refine ⟨by simp, by simp, rfl⟩
  · rw [if_neg hc] at h
    exact absurd h (by simp)

theorem claim_C6_literal_string_witness :
    pegMatch (.Str ['3']) ['3', '5'] 0 =
      .ok (.mk (.Str ['3']) 0 ['3'] [] false)
    ∧ yyLen (.mk (.Str ['3']) 0 ['3'] [] false) = 1 := by
  have h := claim_C6_literal_string ['3'] ['3', '5'] 0
  have hok : pegMatch (.Str ['3']) ['3', '5'] 0 =
      .ok (.mk (.Str ['3']) 0 ['3'] [] false) := by
    rw [h.1, if_pos (by decide)]
  exact ⟨hok, ((h.2 _ hok).1).trans rfl⟩

/-- Claim C10, counterexample to the claim as stated: at a position
strictly past the end of the input, `Dot.match` does not fail with the
ordinary no-match outcome; `Dot.parse` evaluates `inputSequence[pos]`,
raising `IndexError` (modelled as `Res.crash`, which is a distinct
outcome from the `None` sentinel `Res.fail`). -/
theorem claim_C10_counterexample :
    pegMatch .Dot ['a'] 2 = .crash ∧ (Res.crash ≠ Res.fail) := by
  constructor
  · rw [pegMatch_dot, if_neg (by decide), dif_neg (by decide)]
  · intro h
    exact Res.noConfusion h

/-- Claim C10 (amended): `Dot.match(s, i)` succeeds consuming exactly one
character iff `i` is strictly before end-of-input; at `i = len(s)` it
fails with the ordinary no-match outcome; but at `i > len(s)` it raises
an index error rather than returning no-match, so "fails only at
end-of-input, never with an abnormal error" holds only for positions
`i ≤ len(s)`. -/
theorem claim_C10_dot (input : List Char) (pos : Nat) :
    (∀ h : pos < input.length,
      pegMatch .Dot input pos =
        .ok (.mk .Dot pos [input.get ⟨pos, h⟩] [] false)
      ∧ yyLen (.mk .Dot pos [input.get ⟨pos, h⟩] [] false) = 1)
    ∧ (pos = input.length → pegMatch .Dot input pos = .fail)
    ∧ (input.length < pos → pegMatch .Dot input pos = .crash) := by
  refine ⟨?_, ?_, ?_⟩
  · intro h
    rw [pegMatch_dot, if_neg (by omega), dif_pos h]
    exact ⟨rfl, by simp⟩
  · intro h
    rw [pegMatch_dot, if_pos h]
  · intro h
    rw [pegMatch_dot, if_neg (by omega), dif_neg (by omega)]

theorem claim_C10_dot_witness :
    pegMatch .Dot ['a', 'b'] 1 = .ok (.mk .Dot 1 ['b'] [] false)
    ∧ pegMatch .Dot ['a', 'b'] 2 = .fail
    ∧ pegMatch .Dot ['a', 'b'] 3 = .crash := by
  refine ⟨?_, ?_, ?_⟩
  · exact ((claim_C10_dot ['a', 'b'] 1).1 (by decide)).1
  · exact (claim_C10_dot ['a', 'b'] 2).2.1 (by decide)
  · exact (claim_C10_dot ['a', 'b'] 3).2.2 (by decide)

end Peggy

namespace Peggy

/-- Claim C1, counterexample to the claim as stated: take
`m = Sequence(Ignore(String("a")), String("b"))` on input `"ab"` at
position 0.  `m` matches the full text `t = "ab"` (consumed length 2),
but `Ignore(m).match` consumes only 1 character, not `len(t) = 2`:
`Ignore.parse` stores `str(result)` — the RENDERED text of the inner
match, which drops the span ignored inside `m` — as the new node's
`yytext`, and `YYignore` inherits `__len__` from that text. -/
theorem claim_C1_counterexample :
    (pegMatch (.Seq [.Ignore (.Str ['a']), .Str ['b']]) ['a', 'b'] 0).isOk =
      true
    ∧ Res.len (pegMatch (.Seq [.Ignore (.Str ['a']), .Str ['b']])
        ['a', 'b'] 0) = 2
    ∧ (pegMatch (.Ignore (.Seq [.Ignore (.Str ['a']), .Str ['b']]))
        ['a', 'b'] 0).isOk = true
    ∧ Res.len (pegMatch (.Ignore (.Seq [.Ignore (.Str ['a']), .Str ['b']]))
        ['a', 'b'] 0) = 1 := by
  refine ⟨by decide, by decide, by decide, by decide⟩

/-- Claim C1 (amended): for a matcher `m` whose match succeeds at `i`
with node `r`, `Ignore(m).match(s, i)` succeeds with rendered text `""`
and consumed length equal to the length of the RENDERED text of `r`
(which equals the full consumed length `len(t)` exactly when `m`'s match
contains no internally-ignored spans); consequently
`Sequence(Ignore(m), n)` attempts `n` exactly at `i` plus that rendered
length. -/
theorem claim_C1_ignore (m : Symbol) (input : List Char) (i : Nat) (r : YY)
    (h : pegMatch m input i = .ok r) :
    pegMatch (.Ignore m) input i = .ok (.mk (.Ignore m) i (yyStr r) [] true)
    ∧ yyStr (.mk (.Ignore m) i (yyStr r) [] true) = []
    ∧ yyLen (.mk (.Ignore m) i (yyStr r) [] true) = (yyStr r).length
    ∧ (ignFree r = true →
      yyLen (.mk (.Ignore m) i (yyStr r) [] true) = yyLen r)
    ∧ (∀ n : Symbol,
      pegMatch (.Seq [.Ignore m, n]) input i =
        (match pegMatch n input (i + (yyStr r).length) with
         | .crash => .crash
         | .fail => .fail
         | .ok rn => .ok (.mk (.Seq [.Ignore m, n]) i []
             [.mk (.Ignore m) i (yyStr r) [] true, rn] false))) := by
  have hig : pegMatch (.Ignore m) input i =
      .ok (.mk (.Ignore m) i (yyStr r) [] true) := by
    rw [pegMatch_ignore, h]
  refine ⟨hig, by simp, by simp, ?_, ?_⟩
  · intro hfree
    have h1 : yyLen (.mk (.Ignore m) i (yyStr r) [] true) =
        (yyStr r).length := by simp
    rw [h1, yyStr_length_ignFree r hfree]
  · intro n
    rw [pegMatch_seq]
    simp only [seqResults, hig]
    have hlen : yyLen (.mk (.Ignore m) i (yyStr r) [] true) =
        (yyStr r).length := by simp
    rw [hlen]
    cases pegMatch n input (i + (yyStr r).length) with
    | crash => rfl
    | fail => rfl
    | ok rn => rfl

theorem claim_C1_ignore_witness :
    pegMatch (.Ignore (.Str ['a'])) ['a', 'x'] 0 =
      .ok (.mk (.Ignore (.Str ['a'])) 0 ['a'] [] true)
    ∧ pegMatch (.Seq [.Ignore (.Str ['a']), .Str ['x']]) ['a', 'x'] 0 =
        .ok (.mk (.Seq [.Ignore (.Str ['a']), .Str ['x']]) 0 []
          [.mk (.Ignore (.Str ['a'])) 0 ['a'] [] true,
           .mk (.Str ['x']) 1 ['x'] [] false] false) := by
  have h := claim_C1_ignore (.Str ['a']) ['a', 'x'] 0
    (.mk (.Str ['a']) 0 ['a'] [] false)
    (by rw [pegMatch_str, if_pos (by decide)])
  constructor
  · have h1 := h.1
    simpa using h1
  · have h5 := h.2.2.2.2 (.Str ['x'])
    rw [h5]
    have hx : pegMatch (.Str ['x']) ['a', 'x']
        (0 + (yyStr (.mk (.Str ['a']) 0 ['a'] [] false)).length) =
        .ok (.mk (.Str ['x']) 1 ['x'] [] false) := by
      rw [show (0 + (yyStr (.mk (.Str ['a']) 0 ['a'] [] false)).length) = 1
        by simp]
      rw [pegMatch_str, if_pos (by decide)]
    rw [hx]
    simp

end Peggy

namespace Peggy

/-- Claim C3: for matchers `A`, `B` (well-formed, i.e. containing no
degenerate zero-alternative `Choice`) and a position inside the input,
`Choice(A, B).match(s, i)` commits to `A`'s result whenever `A`
succeeds — same consumed length and rendered text, never `B`'s result
even if `B` would consume more — otherwise it equals `B`'s outcome, and
it fails only when both alternatives fail.  Both alternatives are
attempted at the same start position `i`, and neither attempt can raise,
so the three listed cases are exhaustive. -/
theorem claim_C3_choice (A B : Symbol) (s : List Char) (i : Nat)
    (hA : wf A = true) (hB : wf B = true) (hi : i ≤ s.length) :
    (∀ r, pegMatch A s i = .ok r →
      pegMatch (.Choice [A, B]) s i =
        .ok (.mk (.Choice [A, B]) i [] [r] false)
      ∧ yyLen (.mk (.Choice [A, B]) i [] [r] false) = yyLen r
      ∧ yyStr (.mk (.Choice [A, B]) i [] [r] false) = yyStr r)
    ∧ (pegMatch A s i = .fail → ∀ r, pegMatch B s i = .ok r →
      pegMatch (.Choice [A, B]) s i =
        .ok (.mk (.Choice [A, B]) i [] [r] false)
      ∧ yyLen (.mk (.Choice [A, B]) i [] [r] false) = yyLen r
      ∧ yyStr (.mk (.Choice [A, B]) i [] [r] false) = yyStr r)
    ∧ (pegMatch A s i = .fail → pegMatch B s i = .fail →
      pegMatch (.Choice [A, B]) s i = .fail)
    ∧ pegMatch A s i ≠ .crash ∧ pegMatch B s i ≠ .crash := by
  refine ⟨?_, ?_, ?_, pegMatch_no_crash hA hi, pegMatch_no_crash hB hi⟩
  · intro r hr
    refine ⟨?_, by simp, by simp⟩
    rw [pegMatch_choice]
    simp only [chResults, hr]
  · intro hfA r hr
    refine ⟨?_, by simp, by simp⟩
    rw [pegMatch_choice]
    simp only [chResults, hfA, hr]
  · intro hfA hfB
    rw [pegMatch_choice]
    simp only [chResults, hfA, hfB]

theorem claim_C3_choice_witness :
    pegMatch (.Choice [.Str ['a'], .Str ['a', 'b']]) ['a', 'b'] 0 =
      .ok (.mk (.Choice [.Str ['a'], .Str ['a', 'b']]) 0 []
        [.mk (.Str ['a']) 0 ['a'] [] false] false)
    ∧ Res.len (pegMatch (.Choice [.Str ['a'], .Str ['a', 'b']])
        ['a', 'b'] 0) = 1 := by
  have h := (claim_C3_choice (.Str ['a']) (.Str ['a', 'b']) ['a', 'b'] 0
    (by decide) (by decide) (by decide)).1
    (.mk (.Str ['a']) 0 ['a'] [] false)
    (by rw [pegMatch_str, if_pos (by decide)])
  refine ⟨h.1, ?_⟩
  rw [h.1]
  decide

/-- Claim C4: `Sequence(m1..mk).match(s, i)` equals the reference
recursion `seqResults`, which anchors each sub-matcher at `i` plus the
arithmetic sum of the consumed lengths of the already-matched prefix
(never a declared pattern length), fails with the ordinary no-match
outcome — no partial node — as soon as one sub-matcher fails, and on
full success returns one node whose children are the k sub-results in
match order.  The node-append `__add__` used to assemble the prefix
rejects the combination exactly when the appended node's start differs
from the running end; under the stated hypotheses that never happens
(the run does not crash). -/
theorem claim_C4_sequence (l : List Symbol) (s : List Char) (i : Nat)
    (hwf : wfL l = true) (hi : i ≤ s.length) :
    pegMatch (.Seq l) s i =
      (match seqResults s l i with
       | .crash => .crash
       | .fail => .fail
       | .ok rs => .ok (.mk (.Seq l) i [] rs false))
    ∧ seqResults s l i ≠ .crash
    ∧ (∀ a b : YY, yyAdd a b = none ↔ a.pos + yyLen a ≠ b.pos) := by
  refine ⟨pegMatch_seq l s i, ?_, yyAdd_none_iff⟩
  intro hc
  have hnc := pegMatch_no_crash (s := .Seq l) (by simpa using hwf) hi
  rw [pegMatch_seq, hc] at hnc
  exact hnc rfl

theorem claim_C4_sequence_witness :
    pegMatch (.Seq [.Star (.Str ['a']), .Str ['a']]) ['a', 'a', 'a'] 0 =
      .fail
    ∧ yyAdd (.mk .Dot 0 ['x'] [] false) (.mk .Dot 2 ['y'] [] false) =
        none := by
  have h := claim_C4_sequence [.Star (.Str ['a']), .Str ['a']]
    ['a', 'a', 'a'] 0 (by decide) (by decide)
  constructor
  · rw [h.1]
    have hs : seqResults ['a', 'a', 'a'] [.Star (.Str ['a']), .Str ['a']] 0 =
        .fail := rfl
    rw [hs]
  · exact (h.2.2 _ _).mpr (by decide)

/-- Claim C5: at a position inside the input, `Star(m).match(s, i)`
always succeeds (zero-width success — an empty child list — is valid),
its children are exactly the successive repetitions of `m`, each anchored
where the previous one ended and each of non-zero length, and the loop
terminated precisely because the next repetition either failed or
matched zero length (the first zero-length repetition ends the loop and
is discarded). -/
theorem claim_C5_star (m : Symbol) (s : List Char) (i : Nat)
    (hwf : wf m = true) (hi : i ≤ s.length) :
    ∃ rs, pegMatch (.Star m) s i = .ok (.mk (.Star m) i [] rs false)
      ∧ starChain m s i rs
      ∧ (∀ c ∈ rs, 0 < yyLen c)
      ∧ (pegMatch m s (i + yyLenL rs) = .fail
         ∨ ∃ r0, pegMatch m s (i + yyLenL rs) = .ok r0 ∧ yyLen r0 = 0) :=
  pegMatch_star_chain m s i hwf hi

theorem claim_C5_star_witness :
    (pegMatch (.Star (.Str ['3'])) ['3', '3', '3', '5'] 0).isOk = true ∧
    Res.len (pegMatch (.Star (.Str ['3'])) ['3', '3', '3', '5'] 0) = 3 := by
  obtain ⟨rs, hok, _, _, _⟩ := claim_C5_star (.Str ['3'])
    ['3', '3', '3', '5'] 0 (by decide) (by decide)
  constructor
  · rw [hok]; rfl
  · decide

/-- Claim C7: `Plus(m).match(s, i)` behaves exactly as
`Sequence(m, Star(m)).match(s, i)` — `Plus.__init__` builds that very
`Sequence` and `Plus.parse` delegates to it — so the outcomes (and hence
success/failure, consumed length and rendered text) coincide; and
`Plus(m)` fails precisely when the first application of `m` at `i`
fails (the trailing `Star` can never fail). -/
theorem claim_C7_plus (m : Symbol) (s : List Char) (i : Nat) :
    pegMatch (.Plus m) s i = pegMatch (.Seq [m, .Star m]) s i
    ∧ (pegMatch (.Plus m) s i = .fail ↔ pegMatch m s i = .fail) := by
  refine ⟨pegMatch_plus m s i, ?_⟩
  rw [pegMatch_plus, pegMatch_seq]
  constructor
  · intro h
    cases hm : pegMatch m s i with
    | crash => rw [show seqResults s [m, .Star m] i = .crash by
        simp only [seqResults, hm]] at h; exact absurd h (by simp)
    | fail => rfl
    | ok r =>
      cases hst : pegMatch (.Star m) s (i + yyLen r) with
      | crash =>
        rw [show seqResults s [m, .Star m] i = .crash by
          simp only [seqResults, hm, hst]] at h
        exact absurd h (by simp)
      | fail => exact absurd hst (pegMatch_star_not_fail m s (i + yyLen r))
      | ok r2 =>
        rw [show seqResults s [m, .Star m] i =
          .ok [r, r2] by simp only [seqResults, hm, hst]] at h
        exact absurd h (by simp)
  · intro h
    rw [show seqResults s [m, .Star m] i = .fail by
      simp only [seqResults, h]]

end Peggy

namespace Peggy

/-- Claim C2, counterexample to the claim as stated: in one session on
input `"a"`, matching `Sequence(And(g), Ignore(g))` with `g = String("a")`
executes `g`'s recognition routine `parse` twice for the single pair
`(g, 0)`: once through the memoized `match` path (a miss, counted in
`cntM`), and once more because `Ignore.parse` invokes
`self.symbol.parse(...)` directly, bypassing the memo table (counted in
`cntIgn`).  The claim's "at most once per distinct (matcher, position)
pair" is violated. -/
theorem claim_C2_counterexample :
    (matchN 30 (.Seq [.And (.Str ['a']), .Ignore (.Str ['a'])])
        ['a'] 0 St.empty).map
      (fun p => (p.1.isOk,
        cntOf p.2.cntM (.Str ['a'], 0) + cntOf p.2.cntIgn (.Str ['a'], 0))) =
      some (true, 2) := by
  decide

/-- Claim C2 (amended): within one session, (a) a repeated `match` call
with identical arguments returns the structurally identical result of
the first call without touching the state (the first call leaves the
outcome in the memo table unless it raised); and (b) starting from a
fresh session, the recognition routine `parse` executes at most once per
distinct (matcher, position) pair through the memoized `match` entry
point, and the memoized result equals the unmemoized recognition
outcome; however `Ignore.parse` invokes its sub-matcher's `parse`
directly, bypassing the memo table, so total executions of `parse` for a
pair can exceed one (see the counterexample). -/
theorem claim_C2_memo (f : Nat) (n : Symbol) (input : List Char) (pos : Nat)
    (σ : St) (r : Res) (σ' : St) :
    (matchN f n input pos σ = some (r, σ') → r ≠ .crash →
      matchN 1 n input pos σ' = some (r, σ'))
    ∧ (wf n = true → pos ≤ input.length →
      matchN f n input pos St.empty = some (r, σ') →
      r = pegMatch n input pos ∧ (∀ k, cntOf σ'.cntM k ≤ 1)) := by
  constructor
  · intro h hnc
    cases f with
    | zero => rw [matchN_zero] at h; exact absurd h (by simp)
    | succ g =>
      rw [matchN_succ] at h
      cases hl : alookup σ.memo (n, pos) with
      | some v =>
        rw [hl] at h
        obtain ⟨rfl, rfl⟩ := pairSome_inj h
        rw [show (1 : Nat) = 0 + 1 from rfl, matchN_succ, hl]
      | none =>
        rw [hl] at h
        cases hp : parseB g n input pos (σ.bumpM n pos) with
        | none => rw [hp] at h; exact absurd h (by simp)
        | some pr =>
          obtain ⟨r'', σ''⟩ := pr
          rw [hp] at h
          cases r'' with
          | crash =>
            obtain ⟨rfl, rfl⟩ := pairSome_inj h
            exact absurd rfl hnc
          | fail =>
            obtain ⟨rfl, rfl⟩ := pairSome_inj h
            rw [show (1 : Nat) = 0 + 1 from rfl, matchN_succ]
            rw [St.store_memo, alookup_cons_self]
            rfl
          | ok y =>
            obtain ⟨rfl, rfl⟩ := pairSome_inj h
            rw [show (1 : Nat) = 0 + 1 from rfl, matchN_succ]
            rw [St.store_memo, alookup_cons_self]
            rfl
  · intro hwf hpos h
    obtain ⟨hr, _, _, hstep, _, _⟩ := (masterB f).1 n input pos St.empty r σ'
      hwf hpos (Coh_empty input) (CntInv_empty _) h
    refine ⟨hr, fun k => ?_⟩
    rcases hstep k with hu | ⟨_, h1, _, _, _⟩
    · rw [hu]
      simp [St.empty, cntOf]
    · omega

theorem claim_C2_memo_witness :
    matchN 10 (.Str ['a']) ['a'] 0 St.empty =
      some (.ok (.mk (.Str ['a']) 0 ['a'] [] false),
        ⟨[((.Str ['a'], 0), some (.mk (.Str ['a']) 0 ['a'] [] false))],
         [((.Str ['a'], 0), 1)], []⟩)
    ∧ matchN 1 (.Str ['a']) ['a'] 0
        ⟨[((.Str ['a'], 0), some (.mk (.Str ['a']) 0 ['a'] [] false))],
         [((.Str ['a'], 0), 1)], []⟩ =
      some (.ok (.mk (.Str ['a']) 0 ['a'] [] false),
        ⟨[((.Str ['a'], 0), some (.mk (.Str ['a']) 0 ['a'] [] false))],
         [((.Str ['a'], 0), 1)], []⟩)
    ∧ Res.ok (.mk (.Str ['a']) 0 ['a'] [] false) =
        pegMatch (.Str ['a']) ['a'] 0
    ∧ cntOf [((.Str ['a'], 0), 1)] (.Str ['a'], 0) ≤ 1 := by
  have hrun : matchN 10 (.Str ['a']) ['a'] 0 St.empty =
      some (.ok (.mk (.Str ['a']) 0 ['a'] [] false),
        ⟨[((.Str ['a'], 0), some (.mk (.Str ['a']) 0 ['a'] [] false))],
         [((.Str ['a'], 0), 1)], []⟩) := rfl
  have h := claim_C2_memo 10 (.Str ['a']) ['a'] 0 St.empty
    (.ok (.mk (.Str ['a']) 0 ['a'] [] false))
    ⟨[((.Str ['a'], 0), some (.mk (.Str ['a']) 0 ['a'] [] false))],
     [((.Str ['a'], 0), 1)], []⟩
  have h2 := h.2 (by decide) (by decide) hrun
  exact ⟨hrun, h.1 hrun (fun hc => Res.noConfusion hc), h2.1,
    h2.2 (.Str ['a'], 0)⟩

end Peggy

namespace Peggy

/-- Claim C9: within one session (a coherent state whose counters
satisfy the at-most-once invariant), (i) an existing memo entry is never
overwritten — every key is written at most once; (ii) a failing match is
stored as the cached-failure entry `None` under its (matcher, position)
key, which is representable and distinct from an absent entry
(`Undefined`); and (iii) a subsequent match for a key holding a cached
failure returns the failure directly with the state untouched — no
recomputation, no counter change. -/
theorem claim_C9_memo_table (f : Nat) (n : Symbol) (input : List Char)
    (pos : Nat) (σ σ' : St) (k : Symbol × Nat) (v : Option YY) :
    (wf n = true → pos ≤ input.length → Coh input σ →
      CntInv σ (symSize n + 1) → ∀ r,
      matchN f n input pos σ = some (r, σ') →
      alookup σ.memo k = some v → alookup σ'.memo k = some v)
    ∧ (wf n = true → pos ≤ input.length → Coh input σ →
      CntInv σ (symSize n + 1) →
      matchN f n input pos σ = some (.fail, σ') →
      alookup σ'.memo (n, pos) = some none)
    ∧ ((some none : Option (Option YY)) ≠ none)
    ∧ (alookup σ.memo (n, pos) = some none →
      matchN (f + 1) n input pos σ = some (.fail, σ)) := by
  refine ⟨?_, ?_, by simp, ?_⟩
  · intro hwf hpos hcoh hinv r h hk
    obtain ⟨_, hext, _, _, _, _⟩ := (masterB f).1 n input pos σ r σ' hwf hpos
      hcoh hinv h
    exact hext k v hk
  · intro hwf hpos hcoh hinv h
    obtain ⟨_, _, _, _, _, hstored⟩ := (masterB f).1 n input pos σ .fail σ'
      hwf hpos hcoh hinv h
    exact hstored
  · intro hk
    rw [matchN_succ, hk]
    rfl

theorem claim_C9_memo_table_witness :
    matchN 10 (.Str ['b']) ['a'] 0 St.empty =
      some (.fail, ⟨[((.Str ['b'], 0), none)], [((.Str ['b'], 0), 1)], []⟩)
    ∧ alookup [((.Str ['b'], 0), (none : Option YY))] (.Str ['b'], 0) =
        some none
    ∧ matchN 11 (.Str ['b']) ['a'] 0
        ⟨[((.Str ['b'], 0), none)], [((.Str ['b'], 0), 1)], []⟩ =
      some (.fail, ⟨[((.Str ['b'], 0), none)], [((.Str ['b'], 0), 1)], []⟩)
    ∧ alookup (((Symbol.Str ['z'], 0), (none : Option YY)) ::
        [((Symbol.Str ['a'], 0),
          some (YY.mk (.Str ['a']) 0 ['a'] [] false))])
        (Symbol.Str ['a'], 0) =
        some (some (YY.mk (.Str ['a']) 0 ['a'] [] false)) := by
  have hrun : matchN 10 (.Str ['b']) ['a'] 0 St.empty =
      some (.fail, ⟨[((.Str ['b'], 0), none)], [((.Str ['b'], 0), 1)], []⟩) :=
    rfl
  have h4 := (claim_C9_memo_table 10 (.Str ['b']) ['a'] 0
    ⟨[((.Str ['b'], 0), none)], [((.Str ['b'], 0), 1)], []⟩
    ⟨[((.Str ['b'], 0), none)], [((.Str ['b'], 0), 1)], []⟩
    (.Str ['b'], 0) none).2.2.2 (by
      rw [show (⟨[((.Str ['b'], 0), none)],
        [((.Str ['b'], 0), 1)], []⟩ : St).memo =
        [((.Str ['b'], 0), none)] from rfl, alookup_cons_self])
  have hcohσ : Coh ['a']
      ⟨[((Symbol.Str ['a'], 0),
        some (YY.mk (.Str ['a']) 0 ['a'] [] false))], [], []⟩ := by
    intro m p w hw
    by_cases hk : ((Symbol.Str ['a'], 0) : Symbol × Nat) = (m, p)
    · have hm : m = Symbol.Str ['a'] := (congrArg Prod.fst hk).symm
      have hp : p = 0 := (congrArg Prod.snd hk).symm
      subst hm
      subst hp
      rw [show (⟨[((Symbol.Str ['a'], 0),
        some (YY.mk (.Str ['a']) 0 ['a'] [] false))], [], []⟩ : St).memo =
        [((Symbol.Str ['a'], 0),
          some (YY.mk (.Str ['a']) 0 ['a'] [] false))] from rfl,
        alookup_cons_self] at hw
      obtain rfl := (Option.some.inj hw).symm
      rw [pegMatch_str, if_pos (by decide)]
      rfl
    · rw [show (⟨[((Symbol.Str ['a'], 0),
        some (YY.mk (.Str ['a']) 0 ['a'] [] false))], [], []⟩ : St).memo =
        [((Symbol.Str ['a'], 0),
          some (YY.mk (.Str ['a']) 0 ['a'] [] false))] from rfl,
        alookup_cons_other _ _ _ _ hk] at hw
      exact absurd hw (by simp)
  have hinvσ : CntInv ⟨[((Symbol.Str ['a'], 0),
      some (YY.mk (.Str ['a']) 0 ['a'] [] false))], [], []⟩
      (symSize (.Str ['z']) + 1) := by
    intro k
    constructor
    · show cntOf [] k ≤ 1
      simp [cntOf]
    · intro h1
      have h1' : cntOf [] k = 1 := h1
      have h0 : cntOf ([] : List ((Symbol × Nat) × Nat)) k = 0 := by
        simp [cntOf]
      omega
  have hwrite := (claim_C9_memo_table 3 (.Str ['z']) ['a'] 0
    ⟨[((Symbol.Str ['a'], 0),
      some (YY.mk (.Str ['a']) 0 ['a'] [] false))], [], []⟩
    ⟨((Symbol.Str ['z'], 0), none) ::
      [((Symbol.Str ['a'], 0),
        some (YY.mk (.Str ['a']) 0 ['a'] [] false))],
     [((Symbol.Str ['z'], 0), 1)], []⟩
    (Symbol.Str ['a'], 0)
    (some (YY.mk (.Str ['a']) 0 ['a'] [] false))).1 (by decide)
    (by decide) hcohσ hinvσ .fail rfl (by
      rw [show (⟨[((Symbol.Str ['a'], 0),
        some (YY.mk (.Str ['a']) 0 ['a'] [] false))], [], []⟩ : St).memo =
        [((Symbol.Str ['a'], 0),
          some (YY.mk (.Str ['a']) 0 ['a'] [] false))] from rfl,
        alookup_cons_self])
  exact ⟨hrun, by rw [alookup_cons_self], h4, hwrite⟩

/-- Claim C8: evaluating a result node (`YYtext.__call__`) with no
action attached to its owning matcher returns the node's rendered text;
with an action attached, the action receives the full node and its
return value is the semantic value.  Replacing a matcher's action takes
effect for subsequent evaluations — the node references the matcher, not
a frozen action, so this holds also for nodes materialized before the
replacement, while evaluations under other matchers' environments are
unaffected and values already computed are unchanged (evaluation is a
pure function of the environment and the node). -/
theorem claim_C8_actions (V : Type) (env : ActionEnv V) (y : YY)
    (m : Symbol) (a a' : YY → V) :
    (env y.symbol = none → evalNode env y = .inl (yyStr y))
    ∧ (env y.symbol = some a → evalNode env y = .inr (a y))
    ∧ (y.symbol = m → evalNode (setAction env m a') y = .inr (a' y))
    ∧ (y.symbol ≠ m → evalNode (setAction env m a') y = evalNode env y) := by
  refine ⟨?_, ?_, ?_, ?_⟩
  · intro h
    unfold evalNode
    rw [h]
  · intro h
    unfold evalNode
    rw [h]
  · intro h
    unfold evalNode setAction
    rw [if_pos h]
  · intro h
    unfold evalNode setAction
    rw [if_neg h]

theorem claim_C8_actions_witness :
    evalNode (noActions Nat) (.mk .Dot 0 ['z'] [] false) = .inl ['z']
    ∧ evalNode (setAction (noActions Nat) .Dot yyLen)
        (.mk .Dot 0 ['z'] [] false) = .inr 1
    ∧ evalNode (setAction (noActions Nat) (.Str ['w']) yyLen)
        (.mk .Dot 0 ['z'] [] false) = .inl ['z'] := by
  have h := claim_C8_actions Nat (noActions Nat) (.mk .Dot 0 ['z'] [] false)
    .Dot yyLen yyLen
  have h' := claim_C8_actions Nat (noActions Nat)
    (.mk .Dot 0 ['z'] [] false) (.Str ['w']) yyLen yyLen
  refine ⟨?_, ?_, ?_⟩
  · have h1 := h.1 rfl
    simpa using h1
  · have h3 := h.2.2.1 rfl
    rw [h3]
    rfl
  · have h4 := h'.2.2.2 (by simp)
    rw [h4]
    have h1 := h.1 rfl
    simpa using h1

end Peggy
